import Mathlib

/-!
Verification of the `ok26/blockchain` Rust repository against its
natural-language specification.

The development is a shallow embedding: a `BigInt<T>` (an array of `T`
64-bit limbs, least significant first) is represented by its value as a
natural number below `2^(64*T)`; every limb-level operation of the source
is translated to the arithmetic function it computes on that value, with
wrap-around written as an explicit `% 2^(64*T)`.  Fallible or possibly
non-terminating code (panics, the `shl`/`shr` negation fixed point, the
Karatsuba recursion) is modelled with `Option`, using explicit fuel where
the source recursion has no structural measure; all definitions are
executable.
-/

set_option maxRecDepth 10000
set_option maxHeartbeats 1000000
set_option exponentiation.threshold 5000

/-- `2^(64*T)`: one more than the largest value of a `BigInt<T>`
(`src/math/big_int.rs`, `bytes: [u64; T]`). -/
def w64 (T : Nat) : Nat := 2 ^ (64 * T)

/-- The two's-complement sign threshold of a width-`T` value. -/
def half64 (T : Nat) : Nat := 2 ^ (64 * T - 1)

/-- `BigInt::is_negative`: the top bit of the top limb is set. -/
def isNegB (T a : Nat) : Bool := decide (half64 T ≤ a)

/-- `impl Add for BigInt`: limbwise addition with carry, the final carry
out of limb `T-1` being discarded. -/
def addB (T a b : Nat) : Nat := (a + b) % w64 T

/-- `impl Sub for BigInt`: limbwise subtraction with borrow, wrapping. -/
def subB (T a b : Nat) : Nat := (a + (w64 T - b)) % w64 T

/-- `impl Not for BigInt`: limbwise complement. -/
def notB (T a : Nat) : Nat := w64 T - 1 - a

/-- `impl Neg for BigInt`: `!self + 1`. -/
def negB (T a : Nat) : Nat := addB T (notB T a) 1

/-- `BigInt::get_part(i)`: limb `i` (0 for out-of-range `i`, as in the
source). -/
def getPart (a i : Nat) : Nat := a / 2 ^ (64 * i) % 2 ^ 64

/-- `BigInt::from_num`: a `u128` placed into limbs 0 and 1.  Faithful for
`T ≥ 2`; for `T = 1` the source indexes out of bounds and panics, and all
theorems below assume `2 ≤ T`. -/
def fromNum (T x : Nat) : Nat := x % w64 T

/-- `BigInt::single_part_mul`: schoolbook multiplication by one limb,
the carry out of limb `T-1` being discarded. -/
def singlePartMul (T a c : Nat) : Nat := a * c % w64 T

/-- Floor base-2 logarithm by halving, with explicit fuel so that the
kernel can evaluate it (`Nat.log2` itself is defined by well-founded
recursion and does not reduce). -/
def log2F : Nat → Nat → Nat
  | 0, _ => 0
  | f + 1, n => if 2 ≤ n then log2F f (n / 2) + 1 else 0

/-- Kernel-computable `Nat.log2`. -/
def natLog2 (n : Nat) : Nat := log2F n n

theorem log2F_eq (f n : Nat) (h : n ≤ f) : log2F f n = Nat.log2 n := by
  induction f generalizing n with
  | zero =>
    have hn : n = 0 := by omega
    subst hn
    simp [log2F, Nat.log2]
  | succ f ih =>
    unfold log2F
    by_cases h2 : 2 ≤ n
    · rw [if_pos h2, ih (n / 2) (by omega)]
      conv_rhs => rw [Nat.log2]
      rw [if_pos h2]
    · rw [if_neg h2]
      rw [Nat.log2]
      rw [if_neg h2]

theorem natLog2_eq (n : Nat) : natLog2 n = Nat.log2 n := log2F_eq n n le_rfl

/-- `BigInt::log2`: the bit length of the value (index of the highest set
bit plus one; `0` for the value `0`). -/
def log2Src (a : Nat) : Nat := if a = 0 then 0 else natLog2 a + 1

/-- The limb count `n1`/`n2` computed at the top of `Mul::mul`: one plus
the index of the highest nonzero limb, at least 1. -/
def nlimbsB (a : Nat) : Nat := if a = 0 then 1 else natLog2 a / 64 + 1

/-- `BigInt::mod_parts(k)`: zero all limbs of index `≥ k`. -/
def modPartsB (T a k : Nat) : Nat := if k ≤ T then a % 2 ^ (64 * k) else a

/-- The non-negative branch of `impl Shl for BigInt`: a logical left
shift, bits leaving the top limb being discarded (and the whole-limbs
early return for `rhs/64 ≥ T`). -/
def shlPos (T a s : Nat) : Nat := a * 2 ^ s % w64 T

/-- The non-negative branch of `impl Shr for BigInt`: a logical right
shift. -/
def shrPos (a s : Nat) : Nat := a / 2 ^ s

/-- `impl Shl for BigInt`.  A negative operand is handled by
`-((-self) << rhs)`; when `self` is `2^(64T-1)`, `-self = self` and the
source recurses forever, which is modelled as `none`. -/
def shlB (T a s : Nat) : Option Nat :=
  if isNegB T a then
    if isNegB T (negB T a) then none
    else some (negB T (shlPos T (negB T a) s))
  else some (shlPos T a s)

/-- `impl Shr for BigInt`, with the same negation fixed point as `shlB`. -/
def shrB (T a s : Nat) : Option Nat :=
  if isNegB T a then
    if isNegB T (negB T a) then none
    else some (negB T (shrPos (negB T a) s))
  else some (shrPos a s)

/-- The largest single-limb value, `u64::MAX`. -/
def u64max : Nat := 2 ^ 64 - 1

/-- `impl Mul for BigInt` (`src/math/big_int.rs` lines 245-290): the two
single-limb fast paths, then Karatsuba: split both operands at
`m = (n+1)/2` limbs, recurse on the halves and on the sums of the halves,
and recombine with wrapping shifts and adds.  The recursion has no
structural measure, so it is written with explicit fuel; `none` models
both fuel exhaustion and the `shlB` divergence. -/
def mulFuel : Nat → Nat → Nat → Nat → Option Nat
  | 0, _, _, _ => none
  | fuel + 1, T, a, b =>
    if a ≤ u64max then
      if b ≤ u64max then some (fromNum T (getPart a 0 * getPart b 0))
      else some (singlePartMul T b (getPart a 0))
    else if b ≤ u64max then some (singlePartMul T a (getPart b 0))
    else
      let n := max (nlimbsB a) (nlimbsB b)
      let m := (n + 1) / 2
      let x0 := a % 2 ^ (64 * m)
      let y0 := b % 2 ^ (64 * m)
      let x1 := a / 2 ^ (64 * m) % 2 ^ (64 * m)
      let y1 := b / 2 ^ (64 * m) % 2 ^ (64 * m)
      Option.bind (mulFuel fuel T x1 y1) fun z2 =>
      Option.bind (mulFuel fuel T x0 y0) fun z0 =>
      Option.bind (mulFuel fuel T (addB T x1 x0) (addB T y1 y0)) fun z1m =>
      Option.bind (shlB T z2 (2 * m * 64)) fun s2 =>
      Option.bind (shlB T (subB T (subB T z1m z2) z0) (m * 64)) fun s1 =>
      some (addB T (addB T s2 s1) z0)

/-- `a * b` on `BigInt<T>`: `mulFuel` with enough fuel for every
terminating run (the recursion measure `a + b` strictly decreases). -/
def bigMul (T a b : Nat) : Option Nat := mulFuel (a + b + 1) T a b

-- ### Basic facts about the width and the primitive operations

theorem w64_pos (T : Nat) : 0 < w64 T := Nat.pos_pow_of_pos _ (by norm_num)

theorem half64_lt_w64 (T : Nat) (hT : 1 ≤ T) : half64 T < w64 T := by
  have h1 : 64 * T - 1 < 64 * T := by omega
  exact Nat.pow_lt_pow_right (by norm_num) h1

theorem two_half64 (T : Nat) (hT : 1 ≤ T) : 2 * half64 T = w64 T := by
  unfold half64 w64
  have : 64 * T - 1 + 1 = 64 * T := by omega
  rw [← Nat.pow_succ']
  rw [Nat.succ_eq_add_one, this]

theorem addB_lt (T a b : Nat) : addB T a b < w64 T :=
  Nat.mod_lt _ (w64_pos T)

theorem subB_lt (T a b : Nat) : subB T a b < w64 T :=
  Nat.mod_lt _ (w64_pos T)

theorem addB_eq_of_lt {T a b : Nat} (h : a + b < w64 T) : addB T a b = a + b :=
  Nat.mod_eq_of_lt h

theorem subB_eq_of_le {T a b : Nat} (hba : b ≤ a) (ha : a < w64 T) :
    subB T a b = a - b := by
  unfold subB
  have hb : b < w64 T := lt_of_le_of_lt hba ha
  have : a + (w64 T - b) = w64 T + (a - b) := by omega
  rw [this, Nat.add_mod_left, Nat.mod_eq_of_lt (by omega)]

theorem isNegB_false_of_lt {T a : Nat} (h : a < half64 T) : isNegB T a = false := by
  simp [isNegB]; omega

theorem isNegB_true_of_le {T a : Nat} (h : half64 T ≤ a) : isNegB T a = true := by
  simp [isNegB]; omega

theorem shlB_of_lt_half {T a : Nat} (h : a < half64 T) (s : Nat) :
    shlB T a s = some (a * 2 ^ s % w64 T) := by
  unfold shlB
  rw [isNegB_false_of_lt h]
  rfl

theorem shrB_of_lt_half {T a : Nat} (h : a < half64 T) (s : Nat) :
    shrB T a s = some (a / 2 ^ s) := by
  unfold shrB
  rw [isNegB_false_of_lt h]
  rfl

theorem nlimbsB_le (a : Nat) (j : Nat) (hj : 1 ≤ j) (h : a < 2 ^ (64 * j)) :
    nlimbsB a ≤ j := by
  unfold nlimbsB
  by_cases h0 : a = 0
  · simp [h0]; omega
  · simp only [h0, if_false]
    rw [natLog2_eq]
    have hlog : Nat.log2 a < 64 * j := by
      rcases Nat.lt_or_ge (Nat.log2 a) (64 * j) with h' | h'
      · exact h'
      · exfalso
        have h2 : 2 ^ (64 * j) ≤ 2 ^ Nat.log2 a := Nat.pow_le_pow_right (by norm_num) h'
        have h3 : 2 ^ Nat.log2 a ≤ a := Nat.log2_self_le h0
        omega
    have hd : Nat.log2 a / 64 < j := Nat.div_lt_of_lt_mul (by omega)
    omega

theorem lt_of_nlimbsB (a : Nat) : a < 2 ^ (64 * nlimbsB a) := by
  unfold nlimbsB
  by_cases h0 : a = 0
  · simp only [h0, if_true]
    exact Nat.pos_pow_of_pos _ (by norm_num)
  · simp only [h0, if_false]
    rw [natLog2_eq]
    have h1 : a < 2 ^ (Nat.log2 a + 1) := Nat.lt_log2_self
    have h2 : Nat.log2 a + 1 ≤ 64 * (Nat.log2 a / 64 + 1) := by
      have hd := Nat.div_add_mod (Nat.log2 a) 64
      have hm : Nat.log2 a % 64 < 64 := Nat.mod_lt _ (by norm_num)
      omega
    exact lt_of_lt_of_le h1 (Nat.pow_le_pow_right (by norm_num) h2)

theorem nlimbsB_ge_two {a : Nat} (h : u64max < a) : 2 ≤ nlimbsB a := by
  unfold nlimbsB
  have h0 : a ≠ 0 := by unfold u64max at h; omega
  simp only [h0, if_false]
  rw [natLog2_eq]
  have h64 : 2 ^ 64 ≤ a := by unfold u64max at h; omega
  have : 64 ≤ Nat.log2 a := by
    rcases Nat.lt_or_ge (Nat.log2 a) 64 with h' | h'
    · exfalso
      have := Nat.lt_log2_self (n := a)
      have h2 : 2 ^ (Nat.log2 a + 1) ≤ 2 ^ 64 := Nat.pow_le_pow_right (by norm_num) (by omega)
      omega
    · exact h'
  have : 1 ≤ Nat.log2 a / 64 := (Nat.one_le_div_iff (by norm_num)).mpr this
  omega

theorem base_le_of_nlimbsB {a : Nat} (h : a ≠ 0) : 2 ^ (64 * (nlimbsB a - 1)) ≤ a := by
  unfold nlimbsB
  simp only [h, if_false]
  rw [natLog2_eq]
  have h1 : 64 * (Nat.log2 a / 64 + 1 - 1) ≤ Nat.log2 a := by
    have := Nat.div_mul_le_self (Nat.log2 a) 64
    omega
  calc 2 ^ (64 * (Nat.log2 a / 64 + 1 - 1)) ≤ 2 ^ Nat.log2 a :=
        Nat.pow_le_pow_right (by norm_num) h1
    _ ≤ a := Nat.log2_self_le h

-- ### Casting the primitive operations into `ZMod (w64 T)`

theorem castAddB (T a b : Nat) : ((addB T a b : Nat) : ZMod (w64 T)) = a + b := by
  unfold addB
  rw [ZMod.natCast_mod]
  push_cast
  ring

theorem castSubB (T a b : Nat) (hb : b ≤ w64 T) :
    ((subB T a b : Nat) : ZMod (w64 T)) = (a : ZMod (w64 T)) - b := by
  unfold subB
  rw [ZMod.natCast_mod, Nat.cast_add, Nat.cast_sub hb, ZMod.natCast_self]
  ring

theorem castNegB (T a : Nat) (ha : a < w64 T) :
    ((negB T a : Nat) : ZMod (w64 T)) = -(a : ZMod (w64 T)) := by
  unfold negB notB
  rw [castAddB]
  have h1 : a ≤ w64 T - 1 := by omega
  rw [Nat.cast_sub h1, Nat.cast_sub (by omega : 1 ≤ w64 T), ZMod.natCast_self]
  push_cast
  ring

theorem negB_lt (T a : Nat) (hT : 1 ≤ T) : negB T a < w64 T := addB_lt T _ _

theorem castShlPos (T a s : Nat) :
    ((shlPos T a s : Nat) : ZMod (w64 T)) = (a : ZMod (w64 T)) * 2 ^ s := by
  unfold shlPos
  rw [ZMod.natCast_mod]
  push_cast
  ring

theorem castShlB {T a s r : Nat} (h : shlB T a s = some r) (ha : a < w64 T) :
    ((r : Nat) : ZMod (w64 T)) = (a : ZMod (w64 T)) * 2 ^ s := by
  unfold shlB at h
  by_cases hn : isNegB T a
  · rw [if_pos hn] at h
    by_cases hn2 : isNegB T (negB T a)
    · rw [if_pos hn2] at h; exact absurd h (by simp)
    · rw [if_neg hn2] at h
      have hr : r = negB T (shlPos T (negB T a) s) := by
        injection h with h'; exact h'.symm
      subst hr
      rw [castNegB T (shlPos T (negB T a) s) (Nat.mod_lt _ (w64_pos T)),
        castShlPos, castNegB T a ha]
      ring
  · rw [if_neg hn] at h
    have hr : r = shlPos T a s := by injection h with h'; exact h'.symm
    subst hr
    exact castShlPos T a s

theorem shlB_lt {T a s r : Nat} (h : shlB T a s = some r) (hT : 1 ≤ T) : r < w64 T := by
  unfold shlB at h
  by_cases hn : isNegB T a
  · rw [if_pos hn] at h
    by_cases hn2 : isNegB T (negB T a)
    · rw [if_pos hn2] at h; exact absurd h (by simp)
    · rw [if_neg hn2] at h
      injection h with h'
      rw [← h']
      exact negB_lt T _ hT
  · rw [if_neg hn] at h
    injection h with h'
    rw [← h']
    exact Nat.mod_lt _ (w64_pos T)

theorem mulFuel_lt {f T a b r : Nat} (h : mulFuel f T a b = some r) (hT : 1 ≤ T) :
    r < w64 T := by
  match f with
  | 0 => exact absurd h (by simp [mulFuel])
  | fuel + 1 =>
    unfold mulFuel at h
    by_cases h1 : a ≤ u64max
    · rw [if_pos h1] at h
      by_cases h2 : b ≤ u64max
      · rw [if_pos h2] at h
        injection h with h'
        rw [← h']
        exact Nat.mod_lt _ (w64_pos T)
      · rw [if_neg h2] at h
        injection h with h'
        rw [← h']
        exact Nat.mod_lt _ (w64_pos T)
    · rw [if_neg h1] at h
      by_cases h2 : b ≤ u64max
      · rw [if_pos h2] at h
        injection h with h'
        rw [← h']
        exact Nat.mod_lt _ (w64_pos T)
      · rw [if_neg h2] at h
        simp only [Option.bind_eq_some, Option.some.injEq] at h
        obtain ⟨z2, _, z0, _, z1m, _, s2, _, s1, _, hr⟩ := h
        rw [← hr]
        exact addB_lt T _ _

theorem mulFuel_cast {T : Nat} (hT : 2 ≤ T) :
    ∀ f a b r, a < w64 T → b < w64 T → mulFuel f T a b = some r →
      ((r : Nat) : ZMod (w64 T)) = (a : ZMod (w64 T)) * b := by
  intro f
  induction f with
  | zero => intro a b r _ _ h; simp [mulFuel] at h
  | succ fuel ih =>
    intro a b r ha hb h
    unfold mulFuel at h
    have hmod64 : ∀ c : Nat, c ≤ u64max → c / 2 ^ (64 * 0) % 2 ^ 64 = c := by
      intro c hc
      unfold u64max at hc
      simp only [Nat.mul_zero, pow_zero, Nat.div_one]
      exact Nat.mod_eq_of_lt (by omega)
    by_cases h1 : a ≤ u64max
    · rw [if_pos h1] at h
      by_cases h2 : b ≤ u64max
      · rw [if_pos h2] at h
        injection h with h'
        rw [← h']
        show ((fromNum T (getPart a 0 * getPart b 0) : Nat) : ZMod (w64 T)) = _
        unfold fromNum getPart
        rw [hmod64 a h1, hmod64 b h2, ZMod.natCast_mod]
        push_cast
        ring
      · rw [if_neg h2] at h
        injection h with h'
        rw [← h']
        show ((singlePartMul T b (getPart a 0) : Nat) : ZMod (w64 T)) = _
        unfold singlePartMul getPart
        rw [hmod64 a h1, ZMod.natCast_mod]
        push_cast
        ring
    · rw [if_neg h1] at h
      by_cases h2 : b ≤ u64max
      · rw [if_pos h2] at h
        injection h with h'
        rw [← h']
        show ((singlePartMul T a (getPart b 0) : Nat) : ZMod (w64 T)) = _
        unfold singlePartMul getPart
        rw [hmod64 b h2, ZMod.natCast_mod]
        push_cast
        ring
      · rw [if_neg h2] at h
        simp only [Option.bind_eq_some, Option.some.injEq] at h
        set m : Nat := (max (nlimbsB a) (nlimbsB b) + 1) / 2 with hmdef
        obtain ⟨z2, hz2, z0, hz0, z1m, hz1m, s2, hs2, s1, hs1, hr⟩ := h
        have hx1r : a / 2 ^ (64 * m) % 2 ^ (64 * m) = a / 2 ^ (64 * m) := by
          apply Nat.mod_eq_of_lt
          apply Nat.div_lt_of_lt_mul
          rw [← pow_add]
          calc a < 2 ^ (64 * nlimbsB a) := lt_of_nlimbsB a
            _ ≤ 2 ^ (64 * m + 64 * m) := by
              apply Nat.pow_le_pow_right (by norm_num)
              have h1 : nlimbsB a ≤ max (nlimbsB a) (nlimbsB b) := le_max_left _ _
              omega
        have hy1r : b / 2 ^ (64 * m) % 2 ^ (64 * m) = b / 2 ^ (64 * m) := by
          apply Nat.mod_eq_of_lt
          apply Nat.div_lt_of_lt_mul
          rw [← pow_add]
          calc b < 2 ^ (64 * nlimbsB b) := lt_of_nlimbsB b
            _ ≤ 2 ^ (64 * m + 64 * m) := by
              apply Nat.pow_le_pow_right (by norm_num)
              have h1 : nlimbsB b ≤ max (nlimbsB a) (nlimbsB b) := le_max_right _ _
              omega
        rw [hx1r, hy1r] at hz2 hz1m
        have hxd : a / 2 ^ (64 * m) < w64 T := lt_of_le_of_lt (Nat.div_le_self _ _) ha
        have hyd : b / 2 ^ (64 * m) < w64 T := lt_of_le_of_lt (Nat.div_le_self _ _) hb
        have hxm : a % 2 ^ (64 * m) < w64 T := lt_of_le_of_lt (Nat.mod_le _ _) ha
        have hym : b % 2 ^ (64 * m) < w64 T := lt_of_le_of_lt (Nat.mod_le _ _) hb
        have e2 := ih _ _ _ hxd hyd hz2
        have e0 := ih _ _ _ hxm hym hz0
        have e1m := ih _ _ _ (addB_lt T _ _) (addB_lt T _ _) hz1m
        have hz2w : z2 < w64 T := mulFuel_lt hz2 (by omega)
        have hz0w : z0 < w64 T := mulFuel_lt hz0 (by omega)
        have hs2c := castShlB hs2 hz2w
        have hs1c := castShlB hs1 (subB_lt T _ _)
        have hsplit_a : 2 ^ (64 * m) * (a / 2 ^ (64 * m)) + a % 2 ^ (64 * m) = a :=
          Nat.div_add_mod a _
        have hsplit_b : 2 ^ (64 * m) * (b / 2 ^ (64 * m)) + b % 2 ^ (64 * m) = b :=
          Nat.div_add_mod b _
        have hca : ((a : Nat) : ZMod (w64 T)) =
            (2 : ZMod (w64 T)) ^ (64 * m) * (↑(a / 2 ^ (64 * m)) : ZMod (w64 T)) +
              (↑(a % 2 ^ (64 * m)) : ZMod (w64 T)) := by
          conv_lhs => rw [← hsplit_a]
          push_cast
          ring
        have hcb : ((b : Nat) : ZMod (w64 T)) =
            (2 : ZMod (w64 T)) ^ (64 * m) * (↑(b / 2 ^ (64 * m)) : ZMod (w64 T)) +
              (↑(b % 2 ^ (64 * m)) : ZMod (w64 T)) := by
          conv_lhs => rw [← hsplit_b]
          push_cast
          ring
        have hp2 : (2 : ZMod (w64 T)) ^ (2 * m * 64) = ((2 : ZMod (w64 T)) ^ (64 * m)) ^ 2 := by
          rw [← pow_mul]
          congr 1
          ring
        have hp1 : (2 : ZMod (w64 T)) ^ (m * 64) = (2 : ZMod (w64 T)) ^ (64 * m) := by
          congr 1
          ring
        rw [← hr]
        rw [castAddB, castAddB, hs2c, hs1c,
          castSubB T _ _ (le_of_lt hz0w), castSubB T _ _ (le_of_lt hz2w),
          e2, e1m, e0, castAddB, castAddB, hca, hcb, hp2, hp1]
        ring

/-- C7 (amended): whenever `a * b` on `BigInt<T>` terminates (the source
recursion reaches no divergent shift), the value it returns is the
integer product reduced modulo `2^(64*T)`, despite the single-limb fast
paths and the Karatsuba recursion with wrapping intermediate sums.
(`T ≥ 2` because `BigInt::from_num`, used by the fast-path test, writes
limb 1.) -/
theorem mul_wraps_mod (T a b r : Nat) (hT : 2 ≤ T) (ha : a < w64 T) (hb : b < w64 T)
    (h : bigMul T a b = some r) : r = a * b % w64 T := by
  have hcast := mulFuel_cast hT _ a b r ha hb h
  have hlt : r < w64 T := mulFuel_lt h (by omega)
  have : ((r : Nat) : ZMod (w64 T)) = ((a * b : Nat) : ZMod (w64 T)) := by
    rw [hcast]; push_cast; ring
  have hmod := (ZMod.natCast_eq_natCast_iff' _ _ _).mp this
  rw [Nat.mod_eq_of_lt hlt] at hmod
  exact hmod

/-- Witness for `mul_wraps_mod` at `T = 2`, `a = 3`, `b = 5`. -/
theorem mul_wraps_mod_witness : (3 : Nat) * 5 = 3 * 5 % w64 2 :=
  have h : bigMul 2 3 5 = some 15 := by decide
  by simpa using mul_wraps_mod 2 3 5 15 (by norm_num) (by decide) (by decide) h

/-- Counterexample to C7 as stated: at width `N = 2` and
`a = b = 2^63 * (2^64 + 1)` (limbs `[2^63, 2^63]`) the Karatsuba branch
produces the middle term `z1 = 2^127`, whose left shift negates a value
that is its own two's-complement negation, so the source recurses forever
and `a * b` never returns. -/
theorem mul_karatsuba_diverges_cex :
    bigMul 2 (2 ^ 63 * (2 ^ 64 + 1)) (2 ^ 63 * (2 ^ 64 + 1)) = none := by decide

theorem mulFuel_total {T : Nat} (hT : 2 ≤ T) :
    ∀ f a b, a + b < f → a < w64 T → b < w64 T → 2 * (a * b) < w64 T →
      mulFuel f T a b = some (a * b) := by
  intro f
  induction f with
  | zero => intro a b hf _ _ _; omega
  | succ fuel ih =>
    intro a b hf ha hb hab
    unfold mulFuel
    have hmod64 : ∀ c : Nat, c ≤ u64max → c / 2 ^ (64 * 0) % 2 ^ 64 = c := by
      intro c hc
      unfold u64max at hc
      simp only [Nat.mul_zero, pow_zero, Nat.div_one]
      exact Nat.mod_eq_of_lt (by omega)
    by_cases h1 : a ≤ u64max
    · rw [if_pos h1]
      by_cases h2 : b ≤ u64max
      · rw [if_pos h2]
        unfold fromNum getPart
        rw [hmod64 a h1, hmod64 b h2, Nat.mod_eq_of_lt (by omega)]
      · rw [if_neg h2]
        unfold singlePartMul getPart
        rw [hmod64 a h1, Nat.mod_eq_of_lt (by rw [Nat.mul_comm]; omega), Nat.mul_comm]
    · rw [if_neg h1]
      by_cases h2 : b ≤ u64max
      · rw [if_pos h2]
        unfold singlePartMul getPart
        rw [hmod64 b h2, Nat.mod_eq_of_lt (by omega)]
      · rw [if_neg h2]
        simp only
        set n : Nat := max (nlimbsB a) (nlimbsB b) with hndef
        set m : Nat := (n + 1) / 2 with hmdef
        have hna2 : 2 ≤ nlimbsB a := nlimbsB_ge_two (by omega)
        have hnb2 : 2 ≤ nlimbsB b := nlimbsB_ge_two (by omega)
        have hn2 : 2 ≤ n := le_trans hna2 (le_max_left _ _)
        have hm1 : 1 ≤ m := by omega
        have hmn : m < n := by omega
        have hpm1 : (2:Nat) ≤ 2 ^ (64 * m) := by
          calc (2:Nat) = 2 ^ 1 := by norm_num
            _ ≤ 2 ^ (64 * m) := Nat.pow_le_pow_right (by norm_num) (by omega)
        have ha0 : a ≠ 0 := by unfold u64max at h1; omega
        have hb0 : b ≠ 0 := by unfold u64max at h2; omega
        have hx1r : a / 2 ^ (64 * m) % 2 ^ (64 * m) = a / 2 ^ (64 * m) := by
          apply Nat.mod_eq_of_lt
          apply Nat.div_lt_of_lt_mul
          rw [← pow_add]
          calc a < 2 ^ (64 * nlimbsB a) := lt_of_nlimbsB a
            _ ≤ 2 ^ (64 * m + 64 * m) := by
              apply Nat.pow_le_pow_right (by norm_num)
              have h1 : nlimbsB a ≤ n := le_max_left _ _
              omega
        have hy1r : b / 2 ^ (64 * m) % 2 ^ (64 * m) = b / 2 ^ (64 * m) := by
          apply Nat.mod_eq_of_lt
          apply Nat.div_lt_of_lt_mul
          rw [← pow_add]
          calc b < 2 ^ (64 * nlimbsB b) := lt_of_nlimbsB b
            _ ≤ 2 ^ (64 * m + 64 * m) := by
              apply Nat.pow_le_pow_right (by norm_num)
              have h1 : nlimbsB b ≤ n := le_max_right _ _
              omega
        rw [hx1r, hy1r]
        set x1 : Nat := a / 2 ^ (64 * m) with hx1def
        set y1 : Nat := b / 2 ^ (64 * m) with hy1def
        set x0 : Nat := a % 2 ^ (64 * m) with hx0def
        set y0 : Nat := b % 2 ^ (64 * m) with hy0def
        have hsa : 2 ^ (64 * m) * x1 + x0 = a := Nat.div_add_mod a _
        have hsb : 2 ^ (64 * m) * y1 + y0 = b := Nat.div_add_mod b _
        have hx1a : x1 ≤ a := Nat.div_le_self _ _
        have hy1b : y1 ≤ b := Nat.div_le_self _ _
        have hx0a : x0 ≤ a := Nat.mod_le _ _
        have hy0b : y0 ≤ b := Nat.mod_le _ _
        have hgex : x1 ≤ 2 ^ (64 * m) * x1 := Nat.le_mul_of_pos_left x1 (by omega)
        have hgey : y1 ≤ 2 ^ (64 * m) * y1 := Nat.le_mul_of_pos_left y1 (by omega)
        have hsx : x1 + x0 ≤ a := by omega
        have hsy : y1 + y0 ≤ b := by omega
        -- strictness of the recursion measure in each child call
        have hstrict : (2 ^ (64 * m) ≤ a ∧ 1 ≤ x1) ∨ (2 ^ (64 * m) ≤ b ∧ 1 ≤ y1) := by
          by_cases hcase : 2 ^ (64 * m) ≤ a
          · left
            exact ⟨hcase, (Nat.one_le_div_iff (Nat.pos_pow_of_pos _ (by norm_num))).mpr hcase⟩
          · right
            have hnam : nlimbsB a ≤ m :=
              nlimbsB_le a m (by omega) (by omega)
            have hnbn : nlimbsB b = n := by
              have := le_max_right (nlimbsB a) (nlimbsB b)
              omega
            have hbbig : 2 ^ (64 * m) ≤ b := by
              calc (2:Nat) ^ (64 * m) ≤ 2 ^ (64 * (nlimbsB b - 1)) := by
                    apply Nat.pow_le_pow_right (by norm_num)
                    omega
                _ ≤ b := base_le_of_nlimbsB hb0
            exact ⟨hbbig, (Nat.one_le_div_iff (Nat.pos_pow_of_pos _ (by norm_num))).mpr hbbig⟩
        have hx1lt : x1 < a := Nat.div_lt_self (by omega) (by omega)
        have hy1lt : y1 < b := Nat.div_lt_self (by omega) (by omega)
        have hmeas1 : x1 + y1 < a + b := by omega
        have hmeas0 : x0 + y0 < a + b := by
          rcases hstrict with ⟨hc, _⟩ | ⟨hc, _⟩
          · have : x0 < 2 ^ (64 * m) := Nat.mod_lt _ (Nat.pos_pow_of_pos _ (by norm_num))
            omega
          · have : y0 < 2 ^ (64 * m) := Nat.mod_lt _ (Nat.pos_pow_of_pos _ (by norm_num))
            omega
        have hmeasS : (x1 + x0) + (y1 + y0) < a + b := by
          rcases hstrict with ⟨_, hc⟩ | ⟨_, hc⟩
          · have h2x : 2 * x1 ≤ 2 ^ (64 * m) * x1 := Nat.mul_le_mul_right x1 hpm1
            omega
          · have h2y : 2 * y1 ≤ 2 ^ (64 * m) * y1 := Nat.mul_le_mul_right y1 hpm1
            omega
        have hprod : a * b =
            x1 * y1 * (2 ^ (64 * m) * 2 ^ (64 * m)) +
              (x1 * y0 + x0 * y1) * 2 ^ (64 * m) + x0 * y0 := by
          calc a * b = (2 ^ (64 * m) * x1 + x0) * (2 ^ (64 * m) * y1 + y0) := by
                rw [hsa, hsb]
            _ = _ := by ring
        have hz2b : x1 * y1 ≤ a * b := Nat.mul_le_mul hx1a hy1b
        have hz0b : x0 * y0 ≤ a * b := Nat.mul_le_mul hx0a hy0b
        have hzsb : (x1 + x0) * (y1 + y0) ≤ a * b := Nat.mul_le_mul hsx hsy
        have hhalf : 2 * half64 T = w64 T := two_half64 T (by omega)
        -- the three recursive calls, all exact
        have hz2c := ih x1 y1 (by omega) (lt_of_le_of_lt hx1a ha)
          (lt_of_le_of_lt hy1b hb) (by omega)
        have hz0c := ih x0 y0 (by omega) (lt_of_le_of_lt hx0a ha)
          (lt_of_le_of_lt hy0b hb) (by omega)
        have haddx : addB T x1 x0 = x1 + x0 := addB_eq_of_lt (by omega)
        have haddy : addB T y1 y0 = y1 + y0 := addB_eq_of_lt (by omega)
        have hzSc := ih (x1 + x0) (y1 + y0) (by omega) (by omega) (by omega) (by omega)
        rw [hz2c, haddx, haddy, hzSc, hz0c]
        simp only [Option.some_bind]
        -- the middle coefficient
        have hexp : (x1 + x0) * (y1 + y0) = x1 * y1 + (x1 * y0 + x0 * y1 + x0 * y0) := by
          ring
        have hsub1 : subB T ((x1 + x0) * (y1 + y0)) (x1 * y1) =
            x1 * y0 + x0 * y1 + x0 * y0 := by
          rw [subB_eq_of_le (by omega) (by omega)]
          omega
        have hsub2 : subB T (x1 * y0 + x0 * y1 + x0 * y0) (x0 * y0) =
            x1 * y0 + x0 * y1 := by
          rw [subB_eq_of_le (by omega) (by omega)]
          omega
        rw [hsub1, hsub2]
        -- both shifted values are exact and fit
        have hz2half : x1 * y1 < half64 T := by omega
        have hpow2 : (2 : Nat) ^ (2 * m * 64) = 2 ^ (64 * m) * 2 ^ (64 * m) := by
          rw [← pow_add]
          congr 1
          ring
        have hs2le : x1 * y1 * 2 ^ (2 * m * 64) ≤ a * b := by
          rw [hpow2]
          calc x1 * y1 * (2 ^ (64 * m) * 2 ^ (64 * m))
              = (2 ^ (64 * m) * x1) * (2 ^ (64 * m) * y1) := by ring
            _ ≤ a * b := Nat.mul_le_mul (by omega) (by omega)
        have hz1mul : (x1 * y0 + x0 * y1) * 2 ^ (64 * m) ≤ a * b := by omega
        have hz1two : (x1 * y0 + x0 * y1) * 2 ≤ (x1 * y0 + x0 * y1) * 2 ^ (64 * m) :=
          Nat.mul_le_mul_left _ hpm1
        have hz1half : x1 * y0 + x0 * y1 < half64 T := by omega
        have hpows : (2 : Nat) ^ (m * 64) = 2 ^ (64 * m) := by
          congr 1
          ring
        rw [shlB_of_lt_half hz2half, Option.some_bind, shlB_of_lt_half hz1half,
          Option.some_bind, hpows, Nat.mod_eq_of_lt (by omega), Nat.mod_eq_of_lt (by omega)]
        -- final recombination
        have hfin : addB T (addB T (x1 * y1 * 2 ^ (2 * m * 64))
            ((x1 * y0 + x0 * y1) * 2 ^ (64 * m))) (x0 * y0) = a * b := by
          have hin : x1 * y1 * 2 ^ (2 * m * 64) +
              (x1 * y0 + x0 * y1) * 2 ^ (64 * m) < w64 T := by
            rw [hpow2]
            omega
          rw [addB_eq_of_lt hin]
          have hout : x1 * y1 * 2 ^ (2 * m * 64) +
              (x1 * y0 + x0 * y1) * 2 ^ (64 * m) + x0 * y0 < w64 T := by
            rw [hpow2]
            omega
          rw [addB_eq_of_lt hout, hpow2]
          omega
        rw [hfin]

theorem bigMul_total {T a b : Nat} (hT : 2 ≤ T) (ha : a < w64 T) (hb : b < w64 T)
    (hab : 2 * (a * b) < w64 T) : bigMul T a b = some (a * b) :=
  mulFuel_total hT _ a b (by omega) ha hb hab

/-- `impl Div for BigInt`: restoring long division, quotient only.  For a
zero divisor the comparison `r >= rhs` always holds, so every quotient
bit is set. -/
def divB (T a b : Nat) : Nat := if b = 0 then w64 T - 1 else a / b

/-- `BigIntMod::calculate_mu`: `k = log2(m)/64 + 1`, `mu = (1 << 2k*64) / m`. -/
def calculateMu (T m : Nat) : Nat :=
  let k := log2Src m / 64 + 1
  divB T (shlPos T (fromNum T 1) (2 * k * 64)) m

/-- The final correction loop of `BigIntMod::barret_reduce`: the counter
`m` of the source starts at 2, so at most two subtractions run, and a
remainder still `≥ modulo` afterwards panics (modelled as `none`). -/
def barretLoop (T m r : Nat) : Option Nat :=
  let rA := if m ≤ r then subB T r m else r
  let rB := if m ≤ rA then subB T rA m else rA
  if m ≤ rB then none else some rB

/-- `BigIntMod::barret_reduce` (`src/math/big_int.rs` lines 478-504):
`q1 = x >> 64(k-1)`, `q2 = q1*mu`, `q3 = q2 >> 64(k+1)`,
`r = x mod 2^(64(k+1)) - (q3*m) mod 2^(64(k+1))` with a conditional
`+ 2^(64(k+1))` when negative, then at most two correcting subtractions;
the final `panic!` when `r` is still `≥ m` is modelled as `none` (as is
a divergent shift or multiplication). -/
def barretReduce (T x m : Nat) (mu : Option Nat) : Option Nat :=
  let k := log2Src m / 64 + 1
  let mu := mu.getD (calculateMu T m)
  Option.bind (shrB T x (64 * (k - 1))) fun q1 =>
  Option.bind (bigMul T q1 mu) fun q2 =>
  Option.bind (shrB T q2 (64 * (k + 1))) fun q3 =>
  Option.bind (bigMul T q3 m) fun q3m =>
  let r1 := modPartsB T x (k + 1)
  let r2 := modPartsB T q3m (1 + k)
  let r0 := subB T r1 r2
  Option.bind
    (if isNegB T r0 then
      Option.map (fun sh => addB T r0 sh) (shlB T (fromNum T 1) (64 * (k + 1)))
    else some r0) fun rr =>
  barretLoop T m rr

-- helper facts about subtracting residues

theorem mod_sub_eq {L x y : Nat} (hyx : y ≤ x) (hxy : x - y < L)
    (hr : y % L ≤ x % L) : x % L - y % L = x - y := by
  have hL : 0 < L := by
    rcases Nat.eq_zero_or_pos L with h | h
    · omega
    · exact h
  have hx' : L * (x / L) + x % L = x := Nat.div_add_mod x L
  have hy' : L * (y / L) + y % L = y := Nat.div_add_mod y L
  have hxL : x % L < L := Nat.mod_lt _ hL
  have hyL : y % L < L := Nat.mod_lt _ hL
  have hAB : y / L ≤ x / L := Nat.div_le_div_right hyx
  obtain ⟨d, hd⟩ : ∃ d, x / L = y / L + d := ⟨x / L - y / L, by omega⟩
  have hdist : L * (y / L + d) = L * (y / L) + L * d := Nat.mul_add L _ _
  rw [hd] at hx'
  rw [hdist] at hx'
  have hd0 : d = 0 := by
    by_contra hne
    have h1 : 1 ≤ d := by omega
    have h2 : L * 1 ≤ L * d := Nat.mul_le_mul_left L h1
    omega
  subst hd0
  omega

theorem mod_sub_eq_wrap {L x y : Nat} (hyx : y ≤ x) (hxy : x - y < L)
    (hr : x % L < y % L) : x % L + L - y % L = x - y := by
  have hL : 0 < L := by omega
  have hx' : L * (x / L) + x % L = x := Nat.div_add_mod x L
  have hy' : L * (y / L) + y % L = y := Nat.div_add_mod y L
  have hxL : x % L < L := Nat.mod_lt _ hL
  have hyL : y % L < L := Nat.mod_lt _ hL
  have hAB : y / L ≤ x / L := Nat.div_le_div_right hyx
  obtain ⟨d, hd⟩ : ∃ d, x / L = y / L + d := ⟨x / L - y / L, by omega⟩
  have hdist : L * (y / L + d) = L * (y / L) + L * d := Nat.mul_add L _ _
  rw [hd] at hx'
  rw [hdist] at hx'
  have hd1 : d = 1 := by
    rcases Nat.lt_or_ge d 1 with h | h
    · exfalso
      have hz : d = 0 := by omega
      subst hz
      omega
    · rcases Nat.lt_or_ge d 2 with h2 | h2
      · omega
      · exfalso
        have h3 : L * 2 ≤ L * d := Nat.mul_le_mul_left L h2
        omega
  subst hd1
  omega

theorem div_mul_div_le_nat (a b c d : Nat) : a / b * (c / d) ≤ a * c / (b * d) := by
  rcases Nat.eq_zero_or_pos b with hb | hb
  · subst hb; simp
  rcases Nat.eq_zero_or_pos d with hd | hd
  · subst hd; simp
  rw [Nat.le_div_iff_mul_le (Nat.mul_pos hb hd)]
  calc a / b * (c / d) * (b * d) = (a / b * b) * (c / d * d) := by ring
    _ ≤ a * c := Nat.mul_le_mul (Nat.div_mul_le_self a b) (Nat.div_mul_le_self c d)

theorem barrett_q3_le_q (x m K L : Nat) (hK : 0 < K) (hL : 0 < L) :
    x / K * (K * L / m) / L ≤ x / m := by
  have h1 : x / K * (K * L / m) ≤ x * (K * L) / (K * m) := div_mul_div_le_nat x K (K * L) m
  have h2 : x / K * (K * L / m) / L ≤ x * (K * L) / (K * m) / L := Nat.div_le_div_right h1
  have h3 : x * (K * L) / (K * m) / L = x * (K * L) / (K * m * L) :=
    Nat.div_div_eq_div_mul _ _ _
  have h4 : x * (K * L) / (K * m * L) = x / m := by
    have he : K * m * L = K * L * m := by ring
    rw [he, Nat.mul_comm x (K * L)]
    exact Nat.mul_div_mul_left x m (Nat.mul_pos hK hL)
  omega

theorem barrett_q_le (x m K L : Nat) (hm : 0 < m) (hK : 0 < K) (hL : 0 < L)
    (hKm : K ≤ m) (hx : x < K * L) :
    x / m ≤ x / K * (K * L / m) / L + 2 := by
  set q := x / m with hq
  set q1 := x / K with hq1
  set mu := K * L / m with hmu
  set q3 := q1 * mu / L with hq3
  have e1def : L * q3 + q1 * mu % L = q1 * mu := Nat.div_add_mod _ _
  have e2def : K * q1 + x % K = x := Nat.div_add_mod _ _
  have e3def : m * mu + K * L % m = K * L := Nat.div_add_mod _ _
  have e4def : m * q + x % m = x := Nat.div_add_mod _ _
  have he1 : q1 * mu % L < L := Nat.mod_lt _ hL
  have he2 : x % K < K := Nat.mod_lt _ hK
  have he3 : K * L % m < m := Nat.mod_lt _ hm
  have he4 : x % m < m := Nat.mod_lt _ hm
  have hq1L : q1 < L := by
    rw [hq1]
    exact Nat.div_lt_of_lt_mul hx
  by_contra hcon
  push_neg at hcon
  have hq3q : (q3 : ℤ) + 3 ≤ (q : ℤ) := by exact_mod_cast hcon
  have z1 : (L : ℤ) * q3 + (q1 * mu % L : Nat) = (q1 : ℤ) * mu := by exact_mod_cast e1def
  have z2 : (K : ℤ) * q1 + (x % K : Nat) = (x : ℤ) := by exact_mod_cast e2def
  have z3 : (m : ℤ) * mu + (K * L % m : Nat) = (K : ℤ) * L := by exact_mod_cast e3def
  have z4 : (m : ℤ) * q + (x % m : Nat) = (x : ℤ) := by exact_mod_cast e4def
  have keyq3 : (m : ℤ) * L * q3 =
      (L : ℤ) * x - L * (x % K : Nat) - q1 * (K * L % m : Nat) - m * (q1 * mu % L : Nat) := by
    linear_combination (m : ℤ) * z1 + (q1 : ℤ) * z3 + (L : ℤ) * z2
  have h6 : (m : ℤ) * L * q = (L : ℤ) * x - L * (x % m : Nat) := by
    linear_combination (L : ℤ) * z4
  have h5 : (m : ℤ) * L * (q3 + 3) ≤ (m : ℤ) * L * q := by
    apply mul_le_mul_of_nonneg_left _ (by positivity)
    linarith
  have b1 : (L : ℤ) * (x % K : Nat) ≤ (L : ℤ) * m - L := by
    have hcast : ((x % K : Nat) : ℤ) ≤ (m : ℤ) - 1 := by
      have : x % K ≤ m - 1 := by omega
      omega
    have := mul_le_mul_of_nonneg_left hcast (show (0 : ℤ) ≤ L by positivity)
    linarith
  have b2 : (q1 : ℤ) * (K * L % m : Nat) ≤ ((L : ℤ) - 1) * ((m : ℤ) - 1) := by
    apply mul_le_mul
    · omega
    · omega
    · positivity
    · omega
  have b2e : ((L : ℤ) - 1) * ((m : ℤ) - 1) = (L : ℤ) * m - L - m + 1 := by ring
  have b3 : (m : ℤ) * (q1 * mu % L : Nat) ≤ (m : ℤ) * L - m := by
    have hcast : ((q1 * mu % L : Nat) : ℤ) ≤ (L : ℤ) - 1 := by omega
    have := mul_le_mul_of_nonneg_left hcast (show (0 : ℤ) ≤ m by positivity)
    linarith
  have b4 : (0 : ℤ) ≤ (L : ℤ) * (x % m : Nat) := by positivity
  have hL1 : (1 : ℤ) ≤ L := by exact_mod_cast hL
  have hm1 : (1 : ℤ) ≤ m := by exact_mod_cast hm
  nlinarith [keyq3, h6, h5, b1, b2, b2e, b3, b4]

theorem barretLoop_eq {T m D e : Nat} (hDW : D < w64 T) (he : e < m)
    (hcase : D = e ∨ D = m + e ∨ D = m + m + e) :
    barretLoop T m D = some e := by
  simp only [barretLoop]
  rcases hcase with h | h | h
  · subst h
    have h1 : (if m ≤ D then subB T D m else D) = D := if_neg (by omega)
    rw [h1, h1, if_neg (by omega)]
  · subst h
    have h1 : (if m ≤ m + e then subB T (m + e) m else m + e) = e := by
      rw [if_pos (by omega), subB_eq_of_le (by omega) hDW]
      omega
    rw [h1]
    have h2 : (if m ≤ e then subB T e m else e) = e := if_neg (by omega)
    rw [h2, if_neg (by omega)]
  · subst h
    have h1 : (if m ≤ m + m + e then subB T (m + m + e) m else m + m + e) = m + e := by
      rw [if_pos (by omega), subB_eq_of_le (by omega) hDW]
      omega
    rw [h1]
    have h2 : (if m ≤ m + e then subB T (m + e) m else m + e) = e := by
      rw [if_pos (by omega), subB_eq_of_le (by omega) (by omega)]
      omega
    rw [h2, if_neg (by omega)]

/-- C6 (amended): for a modulus `m` whose bit length is not a multiple of
64 (so `2^(64(k-1)) ≤ m` for the source's `k = log2(m)/64 + 1`), a
reciprocal `mu = ⌊2^(128k)/m⌋`, an operand `x < 2^(128k)`, and enough
width (`N ≥ 2k+3`), `barret_reduce` terminates without reaching its
failure branch and returns exactly `x mod m` (hence a value `< m` that is
congruent to `x`). -/
theorem barret_reduce_ok (T x m mu k : Nat)
    (hk : k = log2Src m / 64 + 1)
    (hT : 2 * k + 3 ≤ T)
    (hKm : 2 ^ (64 * (k - 1)) ≤ m)
    (hmu : mu = 2 ^ (128 * k) / m)
    (hx : x < 2 ^ (128 * k)) :
    barretReduce T x m (some mu) = some (x % m) := by
  have hk1 : 1 ≤ k := by omega
  have hT2 : 2 ≤ T := by omega
  set K := 2 ^ (64 * (k - 1)) with hKdef
  set L := 2 ^ (64 * (k + 1)) with hLdef
  have hKpos : 0 < K := Nat.pos_pow_of_pos _ (by norm_num)
  have hLpos : 0 < L := Nat.pos_pow_of_pos _ (by norm_num)
  have hm : 0 < m := lt_of_lt_of_le hKpos hKm
  have hKL : K * L = 2 ^ (128 * k) := by
    rw [hKdef, hLdef, ← pow_add]
    have hexp : 64 * (k - 1) + 64 * (k + 1) = 128 * k := by omega
    rw [hexp]
  have hmub : m < 2 ^ (64 * k) := by
    have hms : m < 2 ^ log2Src m := by
      unfold log2Src
      rw [if_neg (by omega), natLog2_eq]
      exact Nat.lt_log2_self
    have hlb : log2Src m ≤ 64 * k - 1 := by
      have hdm := Nat.div_add_mod (log2Src m) 64
      have h2 : log2Src m % 64 < 64 := Nat.mod_lt _ (by norm_num)
      omega
    exact hms.trans_le (Nat.pow_le_pow_right (by norm_num) (by omega))
  have hp1 : (2 : Nat) ^ (128 * k) ≤ half64 T := by
    unfold half64
    apply Nat.pow_le_pow_right (by norm_num)
    omega
  have hp2 : L * L ≤ half64 T := by
    rw [hLdef, ← pow_add]
    unfold half64
    apply Nat.pow_le_pow_right (by norm_num)
    omega
  have hLhalf : L ≤ half64 T := by
    rw [hLdef]
    unfold half64
    apply Nat.pow_le_pow_right (by norm_num)
    omega
  have hhalfW : half64 T < w64 T := half64_lt_w64 T (by omega)
  have h2half : 2 * half64 T = w64 T := two_half64 T (by omega)
  have hxKL : x < K * L := by
    rw [hKL]
    exact hx
  have hmuKL : mu = K * L / m := by
    rw [hmu, ← hKL]
  have hmuL : mu ≤ L := by
    rw [hmuKL]
    calc K * L / m ≤ K * L / K := Nat.div_le_div_left hKm hKpos
      _ = L := Nat.mul_div_cancel_left L hKpos
  have hxhalf : x < half64 T := lt_of_lt_of_le hx hp1
  have hq1L : x / K < L := Nat.div_lt_of_lt_mul hxKL
  have hmLL : m < L := by
    apply lt_of_lt_of_le hmub
    rw [hLdef]
    apply Nat.pow_le_pow_right (by norm_num)
    omega
  -- the quotient approximation
  have hq3le : x / K * mu / L ≤ x / m := by
    rw [hmuKL]
    exact barrett_q3_le_q x m K L hKpos hLpos
  have hqle : x / m ≤ x / K * mu / L + 2 := by
    rw [hmuKL]
    exact barrett_q_le x m K L hm hKpos hLpos hKm hxKL
  set q1 := x / K with hq1def
  set q3 := q1 * mu / L with hq3def
  have hq3m_le : q3 * m ≤ x := by
    calc q3 * m ≤ x / m * m := Nat.mul_le_mul_right m hq3le
      _ ≤ x := Nat.div_mul_le_self x m
  -- evaluate the shifts and multiplications
  have hshr1 : shrB T x (64 * (k - 1)) = some q1 := by
    rw [shrB_of_lt_half hxhalf]
  have hq1mu : q1 * mu ≤ (L - 1) * L := Nat.mul_le_mul (by omega) hmuL
  have hLL : (L - 1) * L + L = L * L := by
    have h1 : L - 1 + 1 = L := by omega
    calc (L - 1) * L + L = (L - 1 + 1) * L := by ring
      _ = L * L := by rw [h1]
  have hmul1 : bigMul T q1 mu = some (q1 * mu) := by
    apply bigMul_total hT2
    · omega
    · omega
    · omega
  have hq1muhalf : q1 * mu < half64 T := by omega
  have hshr2 : shrB T (q1 * mu) (64 * (k + 1)) = some q3 := by
    rw [shrB_of_lt_half hq1muhalf]
  have hxm : x / m ≤ x := Nat.div_le_self x m
  have hmul2 : bigMul T q3 m = some (q3 * m) := by
    apply bigMul_total hT2
    · omega
    · omega
    · omega
  -- the remainder before correction
  set e := x % m with hedef
  have hex : m * (x / m) + e = x := Nat.div_add_mod x m
  have hem : e < m := Nat.mod_lt _ hm
  have hDcase : x - q3 * m = e ∨ x - q3 * m = m + e ∨ x - q3 * m = m + m + e := by
    obtain ⟨j, hj⟩ : ∃ j, x / m = q3 + j := ⟨x / m - q3, by omega⟩
    have hj2 : j ≤ 2 := by omega
    have hxe : m * (q3 + j) + e = x := by rw [← hj]; exact hex
    interval_cases j
    · left
      have h0 : m * (q3 + 0) = q3 * m := by ring
      omega
    · right; left
      have h1 : m * (q3 + 1) = q3 * m + m := by ring
      omega
    · right; right
      have h2 : m * (q3 + 2) = q3 * m + m + m := by ring
      omega
  have hD3m : x - q3 * m < 3 * m := by
    rcases hDcase with h | h | h <;> omega
  have hL64 : 2 ^ (64 * k) * 2 ^ 64 = L := by
    rw [hLdef, ← pow_add]
    have hexp2 : 64 * k + 64 = 64 * (k + 1) := by ring
    rw [hexp2]
  have hgpos : 0 < 2 ^ (64 * k) := Nat.pos_pow_of_pos _ (by norm_num)
  have hDL : x - q3 * m < L := by omega
  have hDW : x - q3 * m < w64 T := by omega
  -- now unfold the definition and discharge each step
  unfold barretReduce
  rw [← hk]
  simp only [Option.getD_some]
  rw [hshr1, Option.some_bind, hmul1, Option.some_bind, hshr2, Option.some_bind,
    hmul2, Option.some_bind]
  have hR1 : modPartsB T x (k + 1) = x % L := by
    unfold modPartsB
    rw [if_pos (by omega), ← hLdef]
  have hR2 : modPartsB T (q3 * m) (1 + k) = (q3 * m) % L := by
    unfold modPartsB
    rw [if_pos (by omega)]
    have h64 : 64 * (1 + k) = 64 * (k + 1) := by ring
    rw [h64, ← hLdef]
  rw [hR1, hR2]
  have hR1L : x % L < L := Nat.mod_lt _ hLpos
  have hR2L : (q3 * m) % L < L := Nat.mod_lt _ hLpos
  by_cases hc : (q3 * m) % L ≤ x % L
  · -- no borrow: the difference is already the remainder
    have hsub : subB T (x % L) ((q3 * m) % L) = x - q3 * m := by
      rw [subB_eq_of_le hc (by omega)]
      exact mod_sub_eq hq3m_le hDL hc
    rw [hsub, if_neg (by rw [isNegB_false_of_lt (by omega)]; simp), Option.some_bind]
    exact barretLoop_eq hDW hem hDcase
  · -- borrow: the wrapped difference is negative and `2^(64(k+1))` is added
    push_neg at hc
    have hsubw : subB T (x % L) ((q3 * m) % L) = x % L + (w64 T - (q3 * m) % L) := by
      unfold subB
      apply Nat.mod_eq_of_lt
      omega
    have hneg : isNegB T (subB T (x % L) ((q3 * m) % L)) = true := by
      apply isNegB_true_of_le
      rw [hsubw]
      omega
    rw [hneg, if_pos rfl]
    have hone : fromNum T 1 = 1 := Nat.mod_eq_of_lt (by omega)
    have honehalf : (1 : Nat) < half64 T := by
      have : (2 : Nat) ^ 1 ≤ half64 T := by
        unfold half64
        apply Nat.pow_le_pow_right (by norm_num)
        omega
      omega
    rw [hone, shlB_of_lt_half honehalf, Option.map_some']
    have hadd : addB T (subB T (x % L) ((q3 * m) % L)) (1 * 2 ^ (64 * (k + 1)) % w64 T) =
        x - q3 * m := by
      have hLW : 1 * 2 ^ (64 * (k + 1)) % w64 T = L := by
        rw [Nat.one_mul, ← hLdef]
        exact Nat.mod_eq_of_lt (by omega)
      rw [hLW, hsubw]
      unfold addB
      have hval : x % L + (w64 T - (q3 * m) % L) + L = w64 T + (x % L + L - (q3 * m) % L) := by
        omega
      rw [hval, Nat.add_mod_left, Nat.mod_eq_of_lt (by omega)]
      exact mod_sub_eq_wrap hq3m_le hDL hc
    rw [hadd, Option.some_bind]
    exact barretLoop_eq hDW hem hDcase

/-- C6, counterexample to the unamended claim: with width `N = 6`, the
modulus `m = 2^62 + 3` (positive, top bit clear) and `mu` exactly as
`calculate_mu` computes it, the width-6 input `x = 2^192` drives
`barret_reduce` into its `panic!` branch (modelled `none`): the claim's
"for every integer x of width N" is too strong. -/
theorem barret_reduce_panics_cex :
    barretReduce 6 (2 ^ 192) (2 ^ 62 + 3) (some (calculateMu 6 (2 ^ 62 + 3))) = none := by
  decide

theorem barret_reduce_ok_witness :
    barretReduce 5 7 5 (some (2 ^ 128 / 5)) = some (7 % 5) :=
  barret_reduce_ok 5 7 5 (2 ^ 128 / 5) 1 (by decide) (by norm_num) (by norm_num)
    (by norm_num) (by norm_num)

/-! ## SHA-256 (`src/sha256/mod.rs`) -/

/-- `to_be_bytes`: exactly `n` big-endian bytes of `x`. -/
def beBytes : Nat → Nat → List Nat
  | 0, _ => []
  | n + 1, x => beBytes n (x / 256) ++ [x % 256]

/-- `from_be_bytes` on a byte list. -/
def beVal (bs : List Nat) : Nat := bs.foldl (fun acc b => acc * 256 + b) 0

/-- `u32::rotate_right(r)` for `x < 2^32` and `0 < r < 32`. -/
def rotr (r x : Nat) : Nat := x / 2 ^ r + x % 2 ^ r * 2 ^ (32 - r)

/-- The eight words of the initial hash state `H` of
`src/sha256/mod.rs`, packed big-endian into one constant. -/
def shaHPacked : Nat := 0x6a09e667bb67ae853c6ef372a54ff53a510e527f9b05688c1f83d9ab5be0cd19

/-- The initial hash state `H` as a word list. -/
def shaH : List Nat := (List.range 8).map fun i => shaHPacked / 2 ^ (32 * (7 - i)) % 2 ^ 32

/-- The 64 round constants `K` of `src/sha256/mod.rs`, packed big-endian
into one constant. -/
def shaKPacked : Nat := 0x428a2f9871374491b5c0fbcfe9b5dba53956c25b59f111f1923f82a4ab1c5ed5d807aa9812835b01243185be550c7dc372be5d7480deb1fe9bdc06a7c19bf174e49b69c1efbe47860fc19dc6240ca1cc2de92c6f4a7484aa5cb0a9dc76f988da983e5152a831c66db00327c8bf597fc7c6e00bf3d5a7914706ca63511429296727b70a852e1b21384d2c6dfc53380d13650a7354766a0abb81c2c92e92722c85a2bfe8a1a81a664bc24b8b70c76c51a3d192e819d6990624f40e3585106aa07019a4c1161e376c082748774c34b0bcb5391c0cb34ed8aa4a5b9cca4f682e6ff3748f82ee78a5636f84c878148cc7020890befffaa4506cebbef9a3f7c67178f2

/-- The round constants `K` as a word list. -/
def shaK : List Nat := (List.range 64).map fun i => shaKPacked / 2 ^ (32 * (63 - i)) % 2 ^ 32

/-- The padding of `sha256`: `0x80`, zeros until the length is 56 mod 64,
then the bit length `(input.len() * 8) as u64` as eight big-endian bytes. -/
def sha256Pad (input : List Nat) : List Nat :=
  input ++ 0x80 :: List.replicate ((56 + 64 - (input.length + 1) % 64) % 64) 0
    ++ beBytes 8 (input.length * 8 % 2 ^ 64)

/-- The first 16 message-schedule words of a chunk
(`u32::from_be_bytes` on each group of four bytes). -/
def chunkWords : Nat → List Nat → List Nat
  | 0, _ => []
  | n + 1, bs => beVal (bs.take 4) :: chunkWords n (bs.drop 4)

/-- The message-schedule extension, `n` further words (48 in the source). -/
def extendW : Nat → List Nat → List Nat
  | 0, w => w
  | n + 1, w =>
    let i := w.length
    let w15 := w.getD (i - 15) 0
    let w2 := w.getD (i - 2) 0
    let s0 := rotr 7 w15 ^^^ rotr 18 w15 ^^^ (w15 / 2 ^ 3)
    let s1 := rotr 17 w2 ^^^ rotr 19 w2 ^^^ (w2 / 2 ^ 10)
    extendW n (w ++ [(w.getD (i - 16) 0 + s0 + w.getD (i - 7) 0 + s1) % 2 ^ 32])

/-- One round of the compression loop on the state `[a,b,c,d,e,f,g,h]`;
`!e` of a `u32` below `2^32` is `2^32 - 1 - e`. -/
def sha256Round (st : List Nat) (kw : Nat × Nat) : List Nat :=
  match st with
  | [a, b, c, d, e, f, g, hh] =>
    let s1 := rotr 6 e ^^^ rotr 11 e ^^^ rotr 25 e
    let ch := (e &&& f) ^^^ ((2 ^ 32 - 1 - e) &&& g)
    let temp1 := (hh + s1 + ch + kw.1 + kw.2) % 2 ^ 32
    let s0 := rotr 2 a ^^^ rotr 13 a ^^^ rotr 22 a
    let maj := (a &&& b) ^^^ (a &&& c) ^^^ (b &&& c)
    let temp2 := (s0 + maj) % 2 ^ 32
    [(temp1 + temp2) % 2 ^ 32, a, b, c, (d + temp1) % 2 ^ 32, e, f, g]
  | _ => st

/-- Compression of one 64-byte chunk into the running state. -/
def sha256Chunk (h : List Nat) (chunk : List Nat) : List Nat :=
  let w := extendW 48 (chunkWords 16 chunk)
  let st := (shaK.zip w).foldl sha256Round h
  List.zipWith (fun x y => (x + y) % 2 ^ 32) h st

/-- The chunk loop of `sha256`, with fuel bounding the number of chunks. -/
def sha256Blocks : Nat → List Nat → List Nat → List Nat
  | 0, h, _ => h
  | n + 1, h, msg =>
    if msg.isEmpty then h
    else sha256Blocks n (sha256Chunk h (msg.take 64)) (msg.drop 64)

/-- `sha256`: the 32 digest bytes of a byte list. -/
def sha256 (input : List Nat) : List Nat :=
  let padded := sha256Pad input
  (sha256Blocks (padded.length + 1) shaH padded).flatMap (beBytes 4)

/-- `Sha256::is_valid`: the first eight digest bytes, read as a big-endian
`u64`, are below `u64::MAX >> difficulty`. -/
def sha256IsValid (hash : List Nat) (difficulty : Nat) : Bool :=
  decide (beVal (hash.take 8) < (2 ^ 64 - 1) / 2 ^ difficulty)

/-- `obind` at fixed universe zero.  Sequencing the fallible steps
of the embedding with this (rather than the universe-polymorphic
`obind`) keeps elaboration of the long chains below tractable. -/
def obind {A B : Type} (x : Option A) (g : A → Option B) : Option B := Option.bind x g

/-! ## Byte-level encodings (`src/math/big_int.rs`, `src/util/mod.rs`) -/

/-- The zero-stripping loop of `BigInt::to_bytes_be`: drop leading zero
bytes while more than one byte remains. -/
def stripZeros : List Nat → List Nat
  | [] => []
  | b :: bs => if b = 0 ∧ bs ≠ [] then stripZeros bs else b :: bs

/-- `BigInt::to_bytes_be`: the `8T` big-endian bytes of the value,
leading zeros stripped down to at least one byte. -/
def toBytesBe (T a : Nat) : List Nat := stripZeros (beBytes (8 * T) a)

/-- `BigInt::from_bytes_be`: the bytes are packed into the `T` limbs from
the end, so input bytes beyond the low `8T` are silently dropped. -/
def fromBytesBe (T : Nat) (bs : List Nat) : Nat := beVal bs % w64 T

/-- The `skip_while(|b| **b == 0)` of `push_der_length`. -/
def derLenStrip : List Nat → List Nat
  | [] => []
  | b :: bs => if b = 0 then derLenStrip bs else b :: bs

/-- `push_der_length`: short form below `0x80`, otherwise `0x80 | n`
followed by the `n` minimal big-endian bytes of the 64-bit length. -/
def pushDerLength (len : Nat) : List Nat :=
  if len < 0x80 then [len]
  else
    let lb := derLenStrip (beBytes 8 len)
    (0x80 ||| lb.length) :: lb

/-- The long-form accumulation loop of `get_der_length`; an index past
the end of `bytes` is the source's panic, modelled `none`. -/
def derLenLoop (bs : List Nat) : Nat → Nat → Nat → Option (Nat × Nat)
  | 0, idx, len => some (len, idx)
  | n + 1, idx, len =>
    obind bs[idx]? fun b => derLenLoop bs n (idx + 1) ((len <<< 8) ||| b)

/-- `get_der_length` at `idx`: the parsed length and the index just past
the length bytes. -/
def getDerLength (bs : List Nat) (idx : Nat) : Option (Nat × Nat) :=
  obind bs[idx]? fun lenByte =>
  if lenByte &&& 0x80 = 0 then some (lenByte, idx + 1)
  else derLenLoop bs (lenByte &&& 0x7F) (idx + 1) 0

/-- One `0x02` INTEGER of `der_encode`: tag, length, minimal big-endian
bytes. -/
def derEncOne (T f : Nat) : List Nat :=
  0x02 :: (pushDerLength (toBytesBe T f).length ++ toBytesBe T f)

/-- The SEQUENCE content of `der_encode`. -/
def derContent (T : Nat) (fields : List Nat) : List Nat :=
  fields.flatMap (derEncOne T)

/-- `der_encode`: a `0x30` SEQUENCE of one `0x02` INTEGER per field. -/
def derEncode (T : Nat) (fields : List Nat) : List Nat :=
  0x30 :: (pushDerLength (derContent T fields).length ++ derContent T fields)

/-- The field loop of `der_decode`: `while idx < content_len + 1`, where
`stop = content_len + 1`; a failed `assert_eq!(bytes[idx], 0x02)` or an
out-of-range slice is `none`. -/
def derDecodeLoop (T : Nat) (bs : List Nat) (stop : Nat) : Nat → Nat → Option (List Nat)
  | 0, _ => none
  | fuel + 1, idx =>
    if idx < stop then
      obind bs[idx]? fun tag =>
      if tag = 0x02 then
        obind (getDerLength bs (idx + 1)) fun r =>
        if r.2 + r.1 ≤ bs.length then
          obind (derDecodeLoop T bs stop fuel (r.2 + r.1)) fun rest =>
          some (fromBytesBe T ((bs.drop r.2).take r.1) :: rest)
        else none
      else none
    else some []

/-- `der_decode`: check the `0x30` tag, read the content length, then
parse fields while `idx < content_len + 1`. -/
def derDecode (T : Nat) (bs : List Nat) : Option (List Nat) :=
  obind bs[0]? fun b0 =>
  if b0 = 0x30 then
    obind (getDerLength bs 1) fun r =>
    derDecodeLoop T bs (r.1 + 1) (bs.length + 1) r.2
  else none

/-! ## Points and keys (`src/ecdsa/point.rs`, `src/ecdsa/mod.rs`) -/

/-- `AffinePoint`: two `BigInt<4>` coordinates and the infinity flag. -/
structure AffinePoint where
  x : Nat
  y : Nat
  infinity : Bool
deriving DecidableEq

/-- `AffinePoint::infinity()`. -/
def affineInfinity : AffinePoint := ⟨0, 0, true⟩

/-- `ECDSAPublicKey`: a wrapped affine point. -/
structure ECDSAPublicKey where
  key : AffinePoint
deriving DecidableEq

/-- `ECDSAPublicKey::get_der_encoding`: `der_encode(&[&x, &y])`. -/
def ECDSAPublicKey.getDerEncoding (pk : ECDSAPublicKey) : List Nat :=
  derEncode 4 [pk.key.x, pk.key.y]

/-- `AffinePoint::get_bytes`: `0x00` for infinity, else the uncompressed
`0x04 || x || y` form with minimal big-endian coordinates. -/
def AffinePoint.getBytes (p : AffinePoint) : List Nat :=
  if p.infinity then [0x00]
  else 0x04 :: (toBytesBe 4 p.x ++ toBytesBe 4 p.y)

/-! ## secp256k1 constants.  The `ecdsa` module declares its own
`secp256k1` submodule whose file is not in the repository snapshot; the
constants below are those of `src/ecc/secp256k1.rs`, which the spec
names as the curve parameters (standard secp256k1, with the two Barrett
reciprocals `⌊2^640/P⌋` and `⌊2^640/N⌋`). -/

def secpP : Nat := 0xFFFFFFFFFFFFFFFFFFFFFFFFFFFFFFFFFFFFFFFFFFFFFFFFFFFFFFFEFFFFFC2F

def secpGX : Nat := 0x79BE667EF9DCBBAC55A06295CE870B07029BFCDB2DCE28D959F2815B16F81798

def secpGY : Nat := 0x483ADA7726A3C4655DA4FBFC0E1108A8FD17B448A68554199C47D08FFB10D4B8

def secpN : Nat := 0xFFFFFFFFFFFFFFFFFFFFFFFFFFFFFFFEBAAEDCE6AF48A03BBFD25E8CD0364141

def muP : Nat :=
  0x100000000000000000000000000000000000000000000000000000001000003d100000000000000000000000000000000

def muN : Nat :=
  0x1000000000000000000000000000000014551231950b75fc4402da1732fc9bec09d671cd581c69bc5e697f5e45bcd07c7

/-! ## `BigIntMod` arithmetic (`src/math/big_int.rs` lines 415-571) -/

/-- `impl Add for BigIntMod`: wrapping add, one conditional subtraction. -/
def addM (T m a b : Nat) : Nat :=
  let r := addB T a b
  if m ≤ r then subB T r m else r

/-- `impl Sub for BigIntMod`: wrapping sub, one conditional correction
when the difference is negative. -/
def subM (T m a b : Nat) : Nat :=
  let r := subB T a b
  if isNegB T r then addB T r m else r

/-- `impl Mul for BigIntMod`: the wrapping `BigInt` product followed by
`barret_reduce` with the operand's `mu`. -/
def mulM (T m mu a b : Nat) : Option Nat :=
  obind (bigMul T a b) fun p => barretReduce T p m (some mu)

/-- Modular multiplication modulo the field prime `P`, at the width
`T = 12` every curve operation of the source uses. -/
def mulP (a b : Nat) : Option Nat := mulM 12 secpP muP a b

/-- Modular subtraction modulo `P` at width 12. -/
def subP (a b : Nat) : Nat := subM 12 secpP a b

/-- `JacobianPoint`: three `BigInt<4>` coordinates. -/
structure JacobianPoint where
  x : Nat
  y : Nat
  z : Nat
deriving DecidableEq

/-- `JacobianPoint::from_affine`: `(1, 1, 0)` for infinity, else `z = 1`. -/
def JacobianPoint.fromAffine (p : AffinePoint) : JacobianPoint :=
  if p.infinity then ⟨1, 1, 0⟩ else ⟨p.x, p.y, 1⟩

/-- `JacobianPoint::double`.  Every `BigIntMod` step works at width 12
modulo `P`; the final coordinates are resized back to 4 limbs. -/
def jacDouble (q : JacobianPoint) : Option JacobianPoint :=
  if q.z = 0 ∨ q.y = 0 then some ⟨1, 1, 0⟩
  else
    obind (mulP q.y q.y) fun y2 =>
    obind (mulP 4 q.x) fun f4x =>
    obind (mulP f4x y2) fun s =>
    obind (mulP q.x q.x) fun x2 =>
    obind (mulP 3 x2) fun m =>
    obind (mulP m m) fun m2 =>
    obind (mulP 2 s) fun s2 =>
    let x := subP m2 s2
    obind (mulP m (subP s x)) fun msx =>
    obind (mulP y2 y2) fun y4 =>
    obind (mulP 8 y4) fun y8 =>
    let y := subP msx y8
    obind (mulP 2 q.y) fun py2 =>
    obind (mulP py2 q.z) fun z =>
    some ⟨x % w64 4, y % w64 4, z % w64 4⟩

/-- `impl Add<AffinePoint> for JacobianPoint`. -/
def jacAddAffine (j : JacobianPoint) (p : AffinePoint) : Option JacobianPoint :=
  if j.z = 0 then some (JacobianPoint.fromAffine p)
  else if p.infinity then some j
  else
    obind (mulP j.z j.z) fun z1sq =>
    obind (mulP p.x z1sq) fun xz =>
    let h := subP xz j.x
    obind (mulP p.y z1sq) fun yz =>
    obind (mulP yz j.z) fun yzz =>
    let r := subP yzz j.y
    if h = 0 then
      if r ≠ 0 then some ⟨1, 1, 0⟩ else jacDouble j
    else
      obind (mulP h h) fun h2 =>
      obind (mulP h h2) fun h3 =>
      obind (mulP r r) fun r2 =>
      obind (mulP 2 j.x) fun x12 =>
      obind (mulP x12 h2) fun xh2 =>
      let x3 := subP (subP r2 h3) xh2
      obind (mulP j.x h2) fun x1h2 =>
      obind (mulP r (subP x1h2 x3)) fun rx =>
      obind (mulP j.y h3) fun yh3 =>
      let y3 := subP rx yh3
      obind (mulP h j.z) fun z3 =>
      some ⟨x3 % w64 4, y3 % w64 4, z3 % w64 4⟩

/-- `impl Add<JacobianPoint> for JacobianPoint`. -/
def jacAddJac (j : JacobianPoint) (o : JacobianPoint) : Option JacobianPoint :=
  if j.z = 0 then some o
  else if o.z = 0 then some j
  else
    obind (mulP o.z o.z) fun z22 =>
    obind (mulP j.z j.z) fun z12 =>
    obind (mulP j.x z22) fun u =>
    obind (mulP o.x z12) fun xz =>
    let h := subP xz u
    obind (mulP j.y z22) fun yz =>
    obind (mulP yz o.z) fun s =>
    obind (mulP o.y z12) fun yz2 =>
    obind (mulP yz2 j.z) fun yzz =>
    let r := subP yzz s
    if h = 0 then
      if r ≠ 0 then some ⟨1, 1, 0⟩ else jacDouble j
    else
      obind (mulP h h) fun h2 =>
      obind (mulP h h2) fun h3 =>
      obind (mulP r r) fun r2 =>
      obind (mulP 2 u) fun u2 =>
      obind (mulP u2 h2) fun uh2 =>
      let x3 := subP (subP r2 h3) uh2
      obind (mulP u h2) fun uh =>
      obind (mulP r (subP uh x3)) fun rx =>
      obind (mulP s h3) fun sh3 =>
      let y3 := subP rx sh3
      obind (mulP h j.z) fun hz1 =>
      obind (mulP hz1 o.z) fun z3 =>
      some ⟨x3 % w64 4, y3 % w64 4, z3 % w64 4⟩

/-! ## `mod_inverse` (`src/math/algorithms.rs` lines 49-101): binary
extended gcd on two's-complement `BigInt<T>` values. -/

/-- One halving loop of `mod_inverse` (`while !u.is_odd()`), with fuel;
the coefficient shifts go through the signed `>>`. -/
def modInvHalve (T m a : Nat) : Nat → Nat → Nat → Nat → Option (Nat × Nat × Nat)
  | 0, _, _, _ => none
  | f + 1, u, x0, y0 =>
    if u % 2 = 1 then some (u, x0, y0)
    else
      obind (shrB T u 1) fun u2 =>
      if x0 % 2 = 0 ∧ y0 % 2 = 0 then
        obind (shrB T x0 1) fun x0h =>
        obind (shrB T y0 1) fun y0h =>
        modInvHalve T m a f u2 x0h y0h
      else
        obind (shrB T (addB T x0 a) 1) fun x0h =>
        obind (shrB T (subB T y0 m) 1) fun y0h =>
        modInvHalve T m a f u2 x0h y0h

/-- The final `while d0.is_negative() && max_loop != 0` fixup. -/
def modInvFix (T m : Nat) : Nat → Nat → Nat
  | 0, d => d
  | k + 1, d => if isNegB T d then modInvFix T m k (addB T d m) else d

/-- The outer `while u != 0` loop of `mod_inverse`, with fuel. -/
def modInvGo (T m a : Nat) : Nat → Nat → Nat → Nat → Nat → Nat → Nat → Option Nat
  | 0, _, _, _, _, _, _ => none
  | f + 1, u, v, a0, b0, c0, d0 =>
    if u = 0 then
      if v ≠ 1 then none
      else some (modInvFix T m 5 d0)
    else
      obind (modInvHalve T m a (64 * T + 1) u a0 b0) fun s1 =>
      obind (modInvHalve T m a (64 * T + 1) v c0 d0) fun s2 =>
      if s2.1 ≤ s1.1 then
        modInvGo T m a f (subB T s1.1 s2.1) s2.1
          (subB T s1.2.1 s2.2.1) (subB T s1.2.2 s2.2.2) s2.2.1 s2.2.2
      else
        modInvGo T m a f s1.1 (subB T s2.1 s1.1)
          s1.2.1 s1.2.2 (subB T s2.2.1 s1.2.1) (subB T s2.2.2 s1.2.2)

/-- `mod_inverse(a, m)`: `u = m`, `v = a`, coefficients `(1,0,0,1)`; the
outer fuel `128T + 4` covers every terminating run of the binary gcd. -/
def modInverse (T a m : Nat) : Option Nat :=
  modInvGo T m a (128 * T + 4) m a 1 0 0 1

/-! ## Scalar multiplication and `to_affine` -/

/-- The `while i >= 0` loop of `AffinePoint::scalar_multiply`: at counter
`n + 1` the bit index is `n` (`to_bits` is least-significant-first). -/
def scalarGo (p : AffinePoint) (s : Nat) : Nat → JacobianPoint → Option JacobianPoint
  | 0, r => some r
  | n + 1, r =>
    obind (jacDouble r) fun rd =>
    obind (if s / 2 ^ n % 2 = 1 then jacAddAffine rd p else some rd) fun r2 =>
    scalarGo p s n r2

/-- `AffinePoint::scalar_multiply`: starts from the point itself and
walks the bits from `log2(scalar) - 2` down to 0 (`log2` is the bit
length, so the loop runs `log2 - 1` times; for scalar 1 the cast of
`log2 - 2` to `i32` is `-1` and the loop is skipped). -/
def scalarMultiply (p : AffinePoint) (s : Nat) : Option JacobianPoint :=
  if p.infinity ∨ s = 0 then some ⟨1, 1, 0⟩
  else scalarGo p s (log2Src s - 1) (JacobianPoint.fromAffine p)

/-- `JacobianPoint::to_affine`: note that for a point at infinity the
source returns `AffinePoint::new(0, 0)`, whose `infinity` flag is false. -/
def jacToAffine (q : JacobianPoint) : Option AffinePoint :=
  if q.z = 0 then some ⟨0, 0, false⟩
  else
    obind (modInverse 12 q.z secpP) fun zInv =>
    obind (mulP zInv zInv) fun zInv2 =>
    obind (mulP zInv2 zInv) fun zInv3 =>
    obind (mulP q.x zInv2) fun x =>
    obind (mulP q.y zInv3) fun y =>
    some ⟨x % w64 4, y % w64 4, false⟩

/-- `ecdsa::verify`: range checks on `(r, s) = (sig.x, sig.y)`, then
`u1 = z/s`, `u2 = r/s` modulo `N`, the two scalar multiplications, and
the final comparison of `p.x mod N` against `r`. -/
def ecdsaVerify (sig : AffinePoint) (msg : List Nat) (pk : ECDSAPublicKey) : Option Bool :=
  if sig.x = 0 ∨ sig.y = 0 ∨ secpN ≤ sig.x ∨ secpN ≤ sig.y then some false
  else
    let z := beVal (sha256 msg) % w64 4
    obind (modInverse 12 sig.y secpN) fun sInv =>
    obind (mulM 12 secpN muN z sInv) fun u1 =>
    obind (mulM 12 secpN muN sig.x sInv) fun u2 =>
    obind (scalarMultiply ⟨secpGX, secpGY, false⟩ (u1 % w64 4)) fun p1 =>
    obind (scalarMultiply pk.key (u2 % w64 4)) fun p2 =>
    obind (jacAddJac p1 p2) fun psum =>
    obind (jacToAffine psum) fun pa =>
    obind (barretReduce 12 pa.x secpN (some muN)) fun x1 =>
    some (decide (x1 = sig.x))

/-! ## Transactions (`src/blockchain/transaction.rs`) -/

/-- The entropy stream: the source draws 64-bit words from
`/dev/urandom` (`random::get_nrandom_u64`); a run of the program is
modelled against the stream of words it reads, in order. -/
def Ent : Type := Nat → Nat

/-- The stream after consuming its first `n` words. -/
def entDrop (n : Nat) (e : Ent) : Ent := fun i => e (n + i)

/-- `TxInput`: referenced transaction id (32 digest bytes), output index,
and the unlocking `(signature, public key)` pair. -/
structure TxInput where
  txid : List Nat
  vout : Nat
  script_sig : AffinePoint × ECDSAPublicKey
deriving DecidableEq

/-- `TxOutput`.  The snapshot of `transaction.rs` lacks the `spent`
field, but `user/mod.rs` and `blockchain/mod.rs` construct and read
`output.spent` and the spec lists it, so the model carries it. -/
structure TxOutput where
  value : Nat
  script_pubkey : ECDSAPublicKey
  spent : Bool
deriving DecidableEq

/-- `Transaction`: input and output lists. -/
structure Transaction where
  inputs : List TxInput
  outputs : List TxOutput
deriving DecidableEq

/-- `Transaction::get_coinbase`. -/
def getCoinbase (miner : ECDSAPublicKey) (value : Nat) : Transaction :=
  ⟨[], [⟨value, miner, false⟩]⟩

/-- `Transaction::is_coinbase`: no inputs. -/
def Transaction.isCoinbase (tx : Transaction) : Bool := tx.inputs.isEmpty

/-- `Transaction::serialize_for_input(idx, utxo_key)`: input count byte,
each input's txid and big-endian `vout`, the key's DER encoding after
input `idx`, then output count byte and each output's value and key. -/
def serializeForInput (tx : Transaction) (idx : Nat) (key : ECDSAPublicKey) : List Nat :=
  (tx.inputs.length % 256) ::
    (tx.inputs.enum.flatMap fun p =>
      p.2.txid ++ beBytes 4 p.2.vout ++ (if p.1 = idx then key.getDerEncoding else []))
  ++ (tx.outputs.length % 256) ::
    (tx.outputs.flatMap fun o => beBytes 8 o.value ++ o.script_pubkey.getDerEncoding)

/-- `Transaction::get_input_hash`. -/
def getInputHash (tx : Transaction) (idx : Nat) (key : ECDSAPublicKey) : List Nat :=
  sha256 (serializeForInput tx idx key)

/-- The byte string hashed by `Transaction::hash`: for a coinbase, four
random 64-bit words are appended (big-endian) after the inputs. -/
def txHashBytes (tx : Transaction) (e : Ent) : List Nat :=
  (tx.inputs.length % 256) ::
    (tx.inputs.flatMap fun i =>
      i.txid ++ beBytes 4 i.vout ++ i.script_sig.1.getBytes ++ i.script_sig.2.getDerEncoding)
  ++ (if tx.inputs.isEmpty then (List.range 4).flatMap fun i => beBytes 8 (e i) else [])
  ++ (tx.outputs.length % 256) ::
    (tx.outputs.flatMap fun o => beBytes 8 o.value ++ o.script_pubkey.getDerEncoding)

/-- `Transaction::hash`, as a function of the entropy stream. -/
def txHash (tx : Transaction) (e : Ent) : List Nat := sha256 (txHashBytes tx e)

/-- What `Transaction::hash` leaves of the entropy stream: four words are
consumed exactly when the transaction is a coinbase. -/
def txHashEnt (tx : Transaction) (e : Ent) : Ent :=
  if tx.inputs.isEmpty then entDrop 4 e else e

/-- The salt branch of `Transaction::hash` is taken only for an empty
input list, so the digest of a non-coinbase transaction does not depend
on the entropy stream. -/
theorem txHash_det (tx : Transaction) (h : tx.inputs ≠ []) (e1 e2 : Ent) :
    txHash tx e1 = txHash tx e2 := by
  have hne : tx.inputs.isEmpty = false := by
    cases hi : tx.inputs with
    | nil => exact absurd hi h
    | cons a l => rfl
  simp [txHash, txHashBytes, hne]

/-- C10: for every transaction with at least one input (non-coinbase),
`Transaction::hash` is deterministic: the 32 bytes of random salt are
appended only when the input list is empty, so evaluating the hash under
any two entropy streams yields the same digest. -/
theorem tx_hash_deterministic (tx : Transaction) (h : tx.inputs ≠ []) (e1 e2 : Ent) :
    txHash tx e1 = txHash tx e2 :=
  txHash_det tx h e1 e2

theorem tx_hash_deterministic_witness :
    txHash ⟨[⟨List.replicate 32 0, 0, (affineInfinity, ⟨affineInfinity⟩)⟩], []⟩ (fun _ => 0) =
      txHash ⟨[⟨List.replicate 32 0, 0, (affineInfinity, ⟨affineInfinity⟩)⟩], []⟩ (fun _ => 1) :=
  tx_hash_deterministic _ (by decide) _ _

/-! ## Blockchain state and transaction verification
(`src/blockchain/mod.rs`) -/

/-- `MINING_REWARD`. -/
def MINING_REWARD : Nat := 50

/-- `TransactionError`. -/
inductive TransactionError where
  | InvalidSignature
  | InsufficientFunds
  | UnallowedTransaction
  | MismatchedOutput
deriving DecidableEq

/-- `BlockError`. -/
inductive BlockError where
  | InvalidHash
  | InvalidMerkleRoot
  | InvalidPreviousBlockHash
  | InvalidCoinbase
  | InvalidTransactions (errs : List TransactionError)
deriving DecidableEq

/-- The UTXO map `HashMap<Sha256, Vec<TxOutput>>`, as an association
list with insert-replace semantics. -/
abbrev Utxo : Type := List (List Nat × List TxOutput)

/-- `utxo.get(&k)`. -/
def utxoGet (u : Utxo) (k : List Nat) : Option (List TxOutput) :=
  (List.find? (fun p => p.1 == k) u).map fun p => p.2

/-- `utxo.insert(k, v)`: replace the entry of `k` when present,
otherwise add one. -/
def utxoInsert (u : Utxo) (k : List Nat) (v : List TxOutput) : Utxo :=
  if (List.find? (fun p => p.1 == k) u).isSome
  then List.map (fun p => if p.1 == k then (k, v) else p) u
  else u ++ [(k, v)]

/-- `utxo.remove(&k)`. -/
def utxoRemove (u : Utxo) (k : List Nat) : Utxo :=
  List.filter (fun p => !(p.1 == k)) u

/-- The input loop of `Blockchain::verify_new_transaction`: looks up each
input in the UTXO map, checks the spent flag and the key, verifies the
signature, and accumulates the (wrapping `u64`) input total.  `none`
propagates a diverging `ecdsa::verify`. -/
def vntLoop (u : Utxo) (tx : Transaction) :
    List TxInput → Nat → Nat → Option (Except TransactionError Nat)
  | [], _, total => some (.ok total)
  | inp :: rest, i, total =>
    match utxoGet u inp.txid with
    | none => some (.error .InsufficientFunds)
    | some outs =>
      match outs[inp.vout]? with
      | none => some (.error .InsufficientFunds)
      | some refOut =>
        if refOut.spent then some (.error .InsufficientFunds)
        else if refOut.script_pubkey ≠ inp.script_sig.2 then
          some (.error .UnallowedTransaction)
        else
          obind (ecdsaVerify inp.script_sig.1 (getInputHash tx i refOut.script_pubkey)
              inp.script_sig.2) fun ok =>
          if ok then vntLoop u tx rest (i + 1) ((total + refOut.value) % 2 ^ 64)
          else some (.error .InvalidSignature)

/-- The (wrapping `u64`) output total of `verify_new_transaction`. -/
def outTotal (tx : Transaction) : Nat :=
  tx.outputs.foldl (fun acc o => (acc + o.value) % 2 ^ 64) 0

/-- `Blockchain::verify_new_transaction` as a function of the UTXO map
(the only state it reads).  Overflowing value sums wrap as in a release
build. -/
def verifyNewTransaction (u : Utxo) (tx : Transaction) :
    Option (Except TransactionError Unit) :=
  obind (vntLoop u tx tx.inputs 0 0) fun res =>
  match res with
  | .error e => some (.error e)
  | .ok totalInput =>
    if tx.isCoinbase ∧ outTotal tx = MINING_REWARD then some (.ok ())
    else if totalInput ≠ outTotal tx then some (.error .MismatchedOutput)
    else some (.ok ())

/-- The wrapping `u64` fold of output values equals the plain sum
modulo `2^64`. -/
theorem foldl_wrap_eq (l : List TxOutput) (acc : Nat) (h : acc < 2 ^ 64) :
    l.foldl (fun a o => (a + o.value) % 2 ^ 64) acc =
      (acc + (l.map TxOutput.value).sum) % 2 ^ 64 := by
  induction l generalizing acc with
  | nil => simpa using (Nat.mod_eq_of_lt h).symm
  | cons o l ih =>
    simp only [List.foldl_cons, List.map_cons, List.sum_cons]
    rw [ih _ (Nat.mod_lt _ (by norm_num)), Nat.mod_add_mod]
    congr 1
    omega

theorem outTotal_eq (tx : Transaction) :
    outTotal tx = (tx.outputs.map TxOutput.value).sum % 2 ^ 64 := by
  unfold outTotal
  rw [foldl_wrap_eq _ 0 (by norm_num), Nat.zero_add]

/-- C3, counterexample to the "iff" of the claim: the empty-output
coinbase, whose output total is `0 ≠ 50`, is accepted, because the
`total_input != total_output` fallthrough compares `0` with `0`. -/
theorem verify_coinbase_zero_cex :
    verifyNewTransaction [] ⟨[], []⟩ = some (Except.ok ()) ∧
      (((⟨[], []⟩ : Transaction).outputs.map TxOutput.value).sum ≠ MINING_REWARD) := by
  constructor
  · rfl
  · decide

/-- C3 (amended): a coinbase transaction (empty input list) is accepted
iff its wrapped output total is `MINING_REWARD = 50` — or `0`, by the
`total_input != total_output` fallthrough with a zero input total.
Output values sum as wrapping `u64`. -/
theorem verify_coinbase_iff (u : Utxo) (tx : Transaction) (h : tx.inputs = []) :
    verifyNewTransaction u tx = some (Except.ok ()) ↔
      ((tx.outputs.map TxOutput.value).sum % 2 ^ 64 = MINING_REWARD ∨
        (tx.outputs.map TxOutput.value).sum % 2 ^ 64 = 0) := by
  have hcb : tx.isCoinbase = true := by
    unfold Transaction.isCoinbase
    rw [h]
    rfl
  unfold verifyNewTransaction
  rw [h]
  simp only [vntLoop, obind, Option.bind, ← outTotal_eq]
  by_cases h50 : outTotal tx = MINING_REWARD
  · rw [if_pos ⟨hcb, h50⟩]
    simp [h50]
  · rw [if_neg (by exact fun hc => h50 hc.2)]
    by_cases h0 : outTotal tx = 0
    · rw [if_neg (by omega)]
      simp [h0]
    · rw [if_pos (by omega)]
      simp [h50, h0]

theorem verify_coinbase_iff_witness :
    verifyNewTransaction [] (getCoinbase ⟨affineInfinity⟩ 50) = some (Except.ok ()) :=
  (verify_coinbase_iff [] (getCoinbase ⟨affineInfinity⟩ 50) rfl).mpr (Or.inl (by decide))

/-! ## DER round-trip (claim C9) -/

theorem beVal_foldl (l : List Nat) (acc : Nat) :
    l.foldl (fun a b => a * 256 + b) acc =
      acc * 256 ^ l.length + l.foldl (fun a b => a * 256 + b) 0 := by
  induction l generalizing acc with
  | nil => simp
  | cons b l ih =>
    simp only [List.foldl_cons, List.length_cons]
    rw [ih (acc * 256 + b), ih (0 * 256 + b)]
    ring

theorem beVal_cons (b : Nat) (l : List Nat) :
    beVal (b :: l) = b * 256 ^ l.length + beVal l := by
  unfold beVal
  simp only [List.foldl_cons]
  rw [beVal_foldl]
  ring_nf

theorem beVal_append (l1 l2 : List Nat) :
    beVal (l1 ++ l2) = beVal l1 * 256 ^ l2.length + beVal l2 := by
  induction l1 with
  | nil => simp [beVal]
  | cons b l ih =>
    rw [List.cons_append, beVal_cons, ih, beVal_cons, List.length_append]
    ring

theorem beVal_beBytes (n x : Nat) : beVal (beBytes n x) = x % 256 ^ n := by
  induction n generalizing x with
  | zero => simp [beBytes, beVal, Nat.mod_one]
  | succ n ih =>
    unfold beBytes
    rw [beVal_append, ih]
    have h1 : beVal [x % 256] = x % 256 := by simp [beVal]
    rw [h1]
    simp only [List.length_singleton, pow_one]
    rw [pow_succ', Nat.mod_mul]
    ring

theorem beBytes_length (n x : Nat) : (beBytes n x).length = n := by
  induction n generalizing x with
  | zero => rfl
  | succ n ih => simp [beBytes, ih]

theorem beVal_stripZeros (l : List Nat) : beVal (stripZeros l) = beVal l := by
  induction l with
  | nil => rfl
  | cons b l ih =>
    unfold stripZeros
    by_cases h : b = 0 ∧ l ≠ []
    · rw [if_pos h, ih, beVal_cons, h.1]
      simp
    · rw [if_neg h]

theorem stripZeros_ne_nil (l : List Nat) (h : l ≠ []) : stripZeros l ≠ [] := by
  induction l with
  | nil => exact absurd rfl h
  | cons b l ih =>
    unfold stripZeros
    by_cases hc : b = 0 ∧ l ≠ []
    · rw [if_pos hc]
      exact ih hc.2
    · rw [if_neg hc]
      simp

theorem fromBytesBe_toBytesBe (T f : Nat) (hf : f < w64 T) :
    fromBytesBe T (toBytesBe T f) = f := by
  unfold fromBytesBe toBytesBe
  rw [beVal_stripZeros, beVal_beBytes]
  have h256 : (256 : Nat) ^ (8 * T) = w64 T := by
    unfold w64
    rw [show (256 : Nat) = 2 ^ 8 from rfl, ← pow_mul]
    congr 1
    ring
  rw [h256, Nat.mod_eq_of_lt hf, Nat.mod_eq_of_lt hf]

theorem beBytes_zero (n : Nat) : beBytes n 0 = List.replicate n 0 := by
  induction n with
  | zero => rfl
  | succ n ih =>
    unfold beBytes
    rw [Nat.zero_div, ih, Nat.zero_mod, ← List.replicate_succ']

theorem derLenStrip_replicate (n : Nat) (l : List Nat) :
    derLenStrip (List.replicate n 0 ++ l) = derLenStrip l := by
  induction n with
  | zero => rfl
  | succ n ih =>
    rw [List.replicate_succ, List.cons_append]
    have hstep : derLenStrip (0 :: (List.replicate n 0 ++ l)) =
        derLenStrip (List.replicate n 0 ++ l) := by
      show (if (0 : Nat) = 0 then derLenStrip (List.replicate n 0 ++ l)
        else 0 :: (List.replicate n 0 ++ l)) = _
      rw [if_pos rfl]
    rw [hstep]
    exact ih

theorem pushDerLength_small {len : Nat} (h : len < 0x80) : pushDerLength len = [len] := by
  unfold pushDerLength
  rw [if_pos h]

theorem pushDerLength_mid {len : Nat} (h1 : 0x80 ≤ len) (h2 : len < 256) :
    pushDerLength len = [0x81, len] := by
  unfold pushDerLength
  rw [if_neg (by omega)]
  have hb : beBytes 8 len = List.replicate 7 0 ++ [len] := by
    have hstep : beBytes 8 len = beBytes 7 (len / 256) ++ [len % 256] := rfl
    rw [hstep, Nat.div_eq_of_lt h2, Nat.mod_eq_of_lt h2, beBytes_zero]
  rw [hb, derLenStrip_replicate]
  have hs : derLenStrip [len] = [len] := by
    unfold derLenStrip
    rw [if_neg (by omega)]
  rw [hs]
  show ((128 : Nat) ||| 1) :: [len] = [129, len]
  have hlor : (128 : Nat) ||| 1 = 129 := by decide
  rw [hlor]

theorem getElem?_append_len {α : Type} (pre l : List α) (i : Nat) :
    (pre ++ l)[pre.length + i]? = l[i]? := by
  rw [List.getElem?_append_right (by omega)]
  congr 1
  omega

theorem land_eq_zero_of_lt {len : Nat} (h : len < 0x80) : len &&& 0x80 = 0 := by
  have h7 : len.testBit 7 = false := Nat.testBit_eq_false_of_lt h
  have := Nat.and_two_pow len 7
  rw [h7] at this
  simpa using this

theorem land_ne_zero_of_ge {len : Nat} (h1 : 0x80 ≤ len) (h2 : len < 256) :
    len &&& 0x80 ≠ 0 := by
  have h7 : len.testBit 7 = true := by
    rw [Nat.testBit_to_div_mod]
    have hd : len / 2 ^ 7 = 1 := by omega
    rw [hd]
    decide
  have := Nat.and_two_pow len 7
  rw [h7] at this
  simp only [Bool.toNat_true, one_mul] at this
  rw [show (0x80 : Nat) = 2 ^ 7 from rfl, this]
  norm_num

theorem getDerLength_at (pre rest : List Nat) (len : Nat) (h2 : len < 256) :
    getDerLength (pre ++ (pushDerLength len ++ rest)) pre.length =
      some (len, pre.length + (pushDerLength len).length) := by
  by_cases h1 : len < 0x80
  · rw [pushDerLength_small h1]
    unfold getDerLength
    have hidx : (pre ++ ([len] ++ rest))[pre.length]? = some len := by
      simpa using getElem?_append_len pre ([len] ++ rest) 0
    rw [hidx]
    simp only [obind, Option.bind]
    rw [if_pos (land_eq_zero_of_lt h1)]
    rfl
  · rw [pushDerLength_mid (by omega) h2]
    unfold getDerLength
    have hidx : (pre ++ ([0x81, len] ++ rest))[pre.length]? = some 0x81 := by
      simpa using getElem?_append_len pre ([0x81, len] ++ rest) 0
    rw [hidx]
    simp only [obind, Option.bind]
    rw [if_neg (by decide)]
    have h7f : (0x81 : Nat) &&& 0x7F = 1 := by decide
    rw [h7f]
    unfold derLenLoop
    have hidx2 : (pre ++ ([0x81, len] ++ rest))[pre.length + 1]? = some len := by
      simpa using getElem?_append_len pre ([0x81, len] ++ rest) 1
    rw [hidx2]
    simp only [obind, Option.bind]
    unfold derLenLoop
    have hval : ((0 : Nat) <<< 8) ||| len = len := by
      rw [Nat.zero_shiftLeft]
      exact Nat.zero_or len
    rw [hval]
    rfl

theorem toBytesBe_ne_nil (T f : Nat) (hT : 1 ≤ T) : toBytesBe T f ≠ [] := by
  unfold toBytesBe
  apply stripZeros_ne_nil
  intro hnil
  have hl := beBytes_length (8 * T) f
  rw [hnil] at hl
  simp at hl
  omega

theorem derDecodeLoop_encode (T : Nat) (fields : List Nat) : ∀ (pre : List Nat)
    (stop fuel : Nat), 1 ≤ T →
    (∀ f ∈ fields, f < w64 T) →
    (∀ f ∈ fields, (toBytesBe T f).length < 256) →
    stop ≤ pre.length + (derContent T fields).length →
    (∀ k, k < fields.length →
      pre.length + (derContent T (fields.take k)).length < stop) →
    fields.length + 1 ≤ fuel →
    derDecodeLoop T (pre ++ derContent T fields) stop fuel pre.length = some fields := by
  induction fields with
  | nil =>
    intro pre stop fuel hT hf hfl hstop1 hstop2 hfuel
    match fuel, hfuel with
    | fl + 1, _ =>
      unfold derDecodeLoop
      rw [if_neg (by simp [derContent] at hstop1; omega)]
  | cons f rest ih =>
    intro pre stop fuel hT hf hfl hstop1 hstop2 hfuel
    match fuel, hfuel with
    | fl + 1, hfuel =>
    set tb := toBytesBe T f with htb
    set pl := pushDerLength tb.length with hpl
    have hblen : tb.length < 256 := hfl f (by simp)
    have hcontent : ∀ l, derContent T (f :: l) = derEncOne T f ++ derContent T l :=
      fun l => by simp [derContent]
    have hassoc : pre ++ derContent T (f :: rest) =
        (pre ++ [0x02]) ++ (pl ++ (tb ++ derContent T rest)) := by
      rw [hcontent rest]
      simp [derEncOne, ← htb, ← hpl]
    unfold derDecodeLoop
    rw [if_pos (by have := hstop2 0 (by simp); simpa [derContent] using this)]
    have hidx : (pre ++ derContent T (f :: rest))[pre.length]? = some 0x02 := by
      rw [hcontent rest]
      have : derEncOne T f ++ derContent T rest =
          0x02 :: (pl ++ tb ++ derContent T rest) := by
        simp [derEncOne, ← htb, ← hpl]
      rw [this]
      simpa using getElem?_append_len pre (0x02 :: (pl ++ tb ++ derContent T rest)) 0
    rw [hidx]
    simp only [obind, Option.bind, if_true]
    have hgdl : getDerLength (pre ++ derContent T (f :: rest)) (pre.length + 1) =
        some (tb.length, (pre.length + 1) + pl.length) := by
      have h1 : pre.length + 1 = (pre ++ [0x02]).length := by simp
      rw [hassoc, h1, hpl]
      exact getDerLength_at (pre ++ [0x02]) (tb ++ derContent T rest) tb.length hblen
    rw [hgdl]
    simp only [obind, Option.bind]
    have hlen_bs : (pre ++ derContent T (f :: rest)).length =
        pre.length + 1 + pl.length + tb.length + (derContent T rest).length := by
      rw [hassoc]
      simp
      omega
    rw [if_pos (by rw [hlen_bs]; omega)]
    have hdrop : ((pre ++ derContent T (f :: rest)).drop (pre.length + 1 + pl.length)).take
        tb.length = tb := by
      rw [hassoc]
      have h2 : ((pre ++ [0x02]) ++ pl).length = pre.length + 1 + pl.length := by
        simp only [List.length_append, List.length_cons, List.length_nil]
      rw [show (pre ++ [0x02]) ++ (pl ++ (tb ++ derContent T rest)) =
        ((pre ++ [0x02]) ++ pl) ++ (tb ++ derContent T rest) by simp]
      rw [List.drop_left' h2]
      exact List.take_left' rfl
    have hrec : derDecodeLoop T (pre ++ derContent T (f :: rest)) stop fl
        (pre.length + 1 + pl.length + tb.length) = some rest := by
      have hpre' : pre ++ derContent T (f :: rest) =
          (pre ++ derEncOne T f) ++ derContent T rest := by
        rw [hcontent rest]
        simp
      have hlen' : (pre ++ derEncOne T f).length =
          pre.length + 1 + pl.length + tb.length := by
        simp [derEncOne, ← htb, ← hpl]
        omega
      rw [hpre', ← hlen']
      apply ih (pre ++ derEncOne T f) stop fl hT
      · exact fun g hg => hf g (by simp [hg])
      · exact fun g hg => hfl g (by simp [hg])
      · rw [hlen']
        rw [hcontent rest] at hstop1
        simp only [List.length_append] at hstop1
        have hel : (derEncOne T f).length = 1 + pl.length + tb.length := by
          simp only [derEncOne, List.length_cons, List.length_append, ← htb, ← hpl]
          omega
        omega
      · intro k hk
        have := hstop2 (k + 1) (by simpa using hk)
        rw [hlen']
        simp only [List.take_succ_cons] at this
        rw [hcontent (List.take k rest)] at this
        simp only [List.length_append] at this
        have hel2 : (derEncOne T f).length = 1 + pl.length + tb.length := by
          simp only [derEncOne, List.length_cons, List.length_append, ← htb, ← hpl]
          omega
        omega
      · simpa using Nat.le_of_succ_le_succ hfuel
    rw [hrec]
    simp only [obind, Option.bind]
    rw [hdrop, fromBytesBe_toBytesBe T f (hf f (by simp))]

theorem pushDerLength_len_pos (n : Nat) : 1 ≤ (pushDerLength n).length := by
  unfold pushDerLength
  by_cases h : n < 0x80
  · rw [if_pos h]
    simp
  · rw [if_neg h]
    simp

theorem pushDerLength_len_le {n : Nat} (h : n < 256) : (pushDerLength n).length ≤ 2 := by
  by_cases h1 : n < 0x80
  · rw [pushDerLength_small h1]
    simp
  · rw [pushDerLength_mid (by omega) h]
    simp

theorem derEncOne_ge3 (T f : Nat) (hT : 1 ≤ T) : 3 ≤ (derEncOne T f).length := by
  have htb : 1 ≤ (toBytesBe T f).length :=
    List.length_pos.mpr (toBytesBe_ne_nil T f hT)
  have hpd := pushDerLength_len_pos (toBytesBe T f).length
  simp only [derEncOne, List.length_cons, List.length_append]
  omega

theorem derContent_append (T : Nat) (l1 l2 : List Nat) :
    derContent T (l1 ++ l2) = derContent T l1 ++ derContent T l2 := by
  simp [derContent]

theorem derEncOne_le_content (T f : Nat) (fields : List Nat) (hmem : f ∈ fields) :
    (derEncOne T f).length ≤ (derContent T fields).length := by
  induction fields with
  | nil => cases hmem
  | cons g rest ih =>
    have hg : derContent T (g :: rest) = derEncOne T g ++ derContent T rest := by
      simp [derContent]
    rw [hg, List.length_append]
    rcases List.mem_cons.mp hmem with h | h
    · rw [h]
      omega
    · have := ih h
      omega

theorem derContent_len_ge (T : Nat) (fields : List Nat) :
    fields.length ≤ (derContent T fields).length := by
  induction fields with
  | nil => simp [derContent]
  | cons g rest ih =>
    have hg : derContent T (g :: rest) = derEncOne T g ++ derContent T rest := by
      simp [derContent]
    rw [hg]
    simp only [List.length_append, List.length_cons, derEncOne]
    simp
    omega

/-- C9 (amended): for any width `T ≥ 1` and field list of width-`T`
values whose SEQUENCE content is shorter than 256 bytes, `der_decode`
inverts `der_encode` exactly.  (With content of 256 bytes or more the
outer length takes two long-form bytes and the loop bound
`idx < content_len + 1` drops a short trailing field.) -/
theorem der_roundtrip (T : Nat) (fields : List Nat) (hT : 1 ≤ T)
    (hf : ∀ f ∈ fields, f < w64 T)
    (hc : (derContent T fields).length < 256) :
    derDecode T (derEncode T fields) = some fields := by
  have hfl : ∀ f ∈ fields, (toBytesBe T f).length < 256 := by
    intro f hmem
    have h1 := derEncOne_le_content T f fields hmem
    have h2 : (toBytesBe T f).length + 2 ≤ (derEncOne T f).length := by
      have := pushDerLength_len_pos (toBytesBe T f).length
      simp only [derEncOne, List.length_cons, List.length_append]
      omega
    omega
  unfold derDecode derEncode
  have h0 : (0x30 :: (pushDerLength (derContent T fields).length ++ derContent T fields))[0]?
      = some 0x30 := by simp
  rw [h0]
  simp only [obind, Option.bind, if_true]
  have hgdl : getDerLength
      (0x30 :: (pushDerLength (derContent T fields).length ++ derContent T fields)) 1 =
      some ((derContent T fields).length, 1 + (pushDerLength (derContent T fields).length).length) := by
    have h1 : (0x30 :: (pushDerLength (derContent T fields).length ++ derContent T fields)) =
        [0x30] ++ (pushDerLength (derContent T fields).length ++ derContent T fields) := rfl
    rw [h1]
    simpa using getDerLength_at [0x30] (derContent T fields) (derContent T fields).length hc
  rw [hgdl]
  simp only [obind, Option.bind]
  have hpre : (0x30 :: (pushDerLength (derContent T fields).length ++ derContent T fields)) =
      (0x30 :: pushDerLength (derContent T fields).length) ++ derContent T fields := by
    simp
  have hprelen : (0x30 :: pushDerLength (derContent T fields).length).length =
      1 + (pushDerLength (derContent T fields).length).length := by
    simp
    omega
  rw [hpre, ← hprelen]
  apply derDecodeLoop_encode T fields _ _ _ hT hf hfl
  · rw [hprelen]
    have := pushDerLength_len_pos (derContent T fields).length
    omega
  · intro k hk
    rw [hprelen]
    have hsplit : derContent T fields =
        derContent T (fields.take k) ++ derContent T (fields.drop k) := by
      rw [← derContent_append, List.take_append_drop]
    have hdrop_ne : fields.drop k ≠ [] := by
      intro hnil
      have := List.length_drop k fields
      rw [hnil] at this
      simp at this
      omega
    obtain ⟨g, grest, hg⟩ := List.exists_cons_of_ne_nil hdrop_ne
    have hg3 : 3 ≤ (derContent T (fields.drop k)).length := by
      rw [hg]
      have hcc : derContent T (g :: grest) = derEncOne T g ++ derContent T grest := by
        simp [derContent]
      rw [hcc, List.length_append]
      have := derEncOne_ge3 T g hT
      omega
    have hple := pushDerLength_len_le hc
    have hlen_split : (derContent T fields).length =
        (derContent T (fields.take k)).length + (derContent T (fields.drop k)).length := by
      rw [hsplit, List.length_append]
    omega
  · have hlen_bs : fields.length ≤
        ((0x30 :: pushDerLength (derContent T fields).length) ++ derContent T fields).length := by
      rw [List.length_append]
      have := derContent_len_ge T fields
      omega
    omega

theorem der_roundtrip_cex :
    derDecode 38 (derEncode 38 [2 ^ (8 * 299), 5]) ≠ some [2 ^ (8 * 299), 5] := by decide

theorem der_roundtrip_witness : derDecode 4 (derEncode 4 [5, 0x1234]) = some [5, 0x1234] :=
  der_roundtrip 4 [5, 0x1234] (by norm_num) (by decide) (by decide)

/-! ## Merkle tree (`src/blockchain/merkle.rs`) -/

/-- `MerkleNode`: a hash and optional children. -/
inductive MerkleNode where
  | node (hash : List Nat) (left : Option MerkleNode) (right : Option MerkleNode)

/-- The stored hash of a node. -/
def MerkleNode.hash : MerkleNode → List Nat
  | .node h _ _ => h

/-- `MerkleTree::parse_hashes`, with fuel (the source recursion halves
the list, which has no structural measure).  `none` is the source's
`None` for an empty list as well as fuel exhaustion. -/
def parseHashes : Nat → List (List Nat) → Option MerkleNode
  | 0, _ => none
  | fuel + 1, hashes =>
    if hashes.isEmpty then none
    else if hashes.length = 1 then some (.node (hashes.headD []) none none)
    else
      let hs := if hashes.length % 2 = 1 then hashes ++ [hashes.getLastD []] else hashes
      let mid := hs.length / 2
      obind (parseHashes fuel (hs.take mid)) fun left =>
      obind (parseHashes fuel (hs.drop mid)) fun right =>
      some (.node (sha256 (left.hash ++ right.hash)) (some left) (some right))

/-- `MerkleTree`: the root node and the transaction list. -/
structure MerkleTree where
  root : MerkleNode
  transactions : List Transaction

/-- The leaf hashes of `MerkleTree::new`, threading the entropy stream
through the per-transaction `tx.hash()` calls in order. -/
def merkleLeafHashes : List Transaction → Ent → List (List Nat) × Ent
  | [], e => ([], e)
  | tx :: txs, e =>
    let r := merkleLeafHashes txs (txHashEnt tx e)
    (txHash tx e :: r.1, r.2)

/-- `MerkleTree::new`: hash the transactions, duplicate a single hash,
and build the tree (the `unwrap_or_else` default is the empty-input
digest). -/
def merkleNew (txs : List Transaction) (e : Ent) : MerkleTree × Ent :=
  let lh := merkleLeafHashes txs e
  let hashes := if lh.1.length = 1 then lh.1 ++ [lh.1.headD []] else lh.1
  (⟨(parseHashes (hashes.length + 1) hashes).getD (.node (sha256 []) none none), txs⟩, lh.2)

/-- `MerkleTree::root_hash`. -/
def MerkleTree.rootHash (t : MerkleTree) : List Nat := t.root.hash

/-- `recursive_find_transaction`, with fuel for the tree descent; a leaf
(`is_leaf_node`) contributes nothing. -/
def recursiveFind : Nat → MerkleNode → Nat → Nat → List (List Nat × Nat)
  | 0, _, _, _ => []
  | fuel + 1, .node _ ol orr, cnt, idx =>
    match ol, orr with
    | some l, some r =>
      let cnt2 := (cnt + 1) / 2
      if cnt2 ≤ idx then (l.hash, 0) :: recursiveFind fuel r cnt2 (idx % cnt2)
      else (r.hash, 1) :: recursiveFind fuel l cnt2 idx
    | _, _ => []

/-- `iter().position(|tx| tx == &transaction)`. -/
def positionB (tx : Transaction) : List Transaction → Option Nat
  | [] => none
  | t :: rest => if t == tx then some 0 else (positionB tx rest).map (· + 1)

/-- `MerkleTree::get_branch_hashes`: the collected branch, reversed. -/
def getBranchHashes (t : MerkleTree) (tx : Transaction) : Option (List (List Nat × Nat)) :=
  obind (positionB tx t.transactions) fun idx =>
  some ((recursiveFind (t.transactions.length + 2) t.root t.transactions.length idx).reverse)

/-- The folding loop of `verify_transaction_branch`: `side = 0` means the
branch hash stands to the left. -/
def branchFold (h : List Nat) (br : List (List Nat × Nat)) : List Nat :=
  br.foldl
    (fun nodeHash p => if p.2 = 0 then sha256 (p.1 ++ nodeHash) else sha256 (nodeHash ++ p.1)) h

/-- `MerkleTree::verify_transaction_branch` (it recomputes `tx.hash()`,
so it takes the entropy stream of that call). -/
def verifyTransactionBranch (tx : Transaction) (branch : List (List Nat × Nat))
    (root : List Nat) (e : Ent) : Bool :=
  branchFold (txHash tx e) branch == root

/-! ## Merkle branch correctness (claim C4) -/

theorem obind_eq_some {A B : Type} (x : Option A) (g : A → Option B) (b : B) :
    obind x g = some b ↔ ∃ a, x = some a ∧ g a = some b := by
  cases x <;> simp [obind]

theorem recursiveFind_leaf (fuel : Nat) (h : List Nat) (cnt idx : Nat) :
    recursiveFind fuel (.node h none none) cnt idx = [] := by
  cases fuel <;> rfl

theorem branchFold_append (h : List Nat) (br1 br2 : List (List Nat × Nat)) :
    branchFold h (br1 ++ br2) = branchFold (branchFold h br1) br2 := by
  simp [branchFold]

theorem parse_find_fold (fuel1 : Nat) : ∀ (fuel2 : Nat) (hs : List (List Nat))
    (cnt idx : Nat) (nd : MerkleNode),
    parseHashes fuel1 hs = some nd → hs.length = cnt → idx < cnt → fuel1 ≤ fuel2 →
    branchFold (hs.getD idx []) (recursiveFind fuel2 nd cnt idx).reverse = nd.hash := by
  induction fuel1 with
  | zero =>
    intro fuel2 hs cnt idx nd hparse
    exact absurd hparse (by simp [parseHashes])
  | succ f ih =>
    intro fuel2 hs cnt idx nd hparse hcnt hidx hfuel
    have hcntpos : 1 ≤ cnt := by omega
    have hne : hs.isEmpty = false := by
      cases hs with
      | nil => simp at hcnt; omega
      | cons a l => rfl
    by_cases hlen1 : hs.length = 1
    · -- leaf
      have hcnt1 : cnt = 1 := by omega
      have hidx0 : idx = 0 := by omega
      have hnd : nd = .node (hs.headD []) none none := by
        unfold parseHashes at hparse
        rw [hne] at hparse
        simp only [Bool.false_eq_true, if_false, hlen1, if_pos rfl] at hparse
        exact (Option.some.inj hparse).symm
      subst hnd hcnt1 hidx0
      rw [recursiveFind_leaf]
      simp [branchFold, MerkleNode.hash]
      cases hs with
      | nil => simp at hlen1
      | cons a l => simp
    · -- internal node
      have hcnt2 : 2 ≤ cnt := by omega
      set hs' := if hs.length % 2 = 1 then hs ++ [hs.getLastD []] else hs with hhs'
      have hlen' : hs'.length = if cnt % 2 = 1 then cnt + 1 else cnt := by
        rw [hhs']
        by_cases hpar : hs.length % 2 = 1
        · rw [if_pos hpar, if_pos (by omega)]
          simp
          omega
        · rw [if_neg hpar, if_neg (by omega)]
          omega
      have hlen'_even : hs'.length % 2 = 0 := by
        by_cases hpar : cnt % 2 = 1 <;> simp [hlen', hpar] <;> omega
      set mid := hs'.length / 2 with hmid
      have hmid_eq : mid = (cnt + 1) / 2 := by
        by_cases hpar : cnt % 2 = 1 <;> simp [hmid, hlen', hpar] <;> omega
      have hparse2 : obind (parseHashes f (hs'.take mid)) (fun left =>
          obind (parseHashes f (hs'.drop mid)) fun right =>
          some (.node (sha256 (left.hash ++ right.hash)) (some left) (some right))) = some nd := by
        unfold parseHashes at hparse
        rw [hne] at hparse
        simp only [Bool.false_eq_true, if_false, hlen1] at hparse
        exact hparse
      rw [obind_eq_some] at hparse2
      obtain ⟨l, hl, hparse3⟩ := hparse2
      rw [obind_eq_some] at hparse3
      obtain ⟨r, hr, hnd⟩ := hparse3
      have hnd' : nd = .node (sha256 (l.hash ++ r.hash)) (some l) (some r) :=
        ((Option.some.injEq _ _).mp hnd).symm
      subst hnd'
      have hmidcnt : cnt ≤ 2 * mid := by omega
      have hmidlt : mid < cnt := by omega
      have htakelen : (hs'.take mid).length = mid := by
        rw [List.length_take]
        omega
      have hdroplen : (hs'.drop mid).length = mid := by
        rw [List.length_drop]
        omega
      match fuel2, hfuel with
      | f2 + 1, hfuel =>
      have hf2 : f ≤ f2 := by omega
      show branchFold (hs.getD idx [])
        (recursiveFind (f2 + 1) (.node (sha256 (l.hash ++ r.hash)) (some l) (some r)) cnt idx).reverse
          = _
      unfold recursiveFind
      simp only
      rw [← hmid_eq]
      by_cases hside : mid ≤ idx
      · rw [if_pos hside]
        have hmod : idx % mid = idx - mid := by
          have h1 : idx - mid < mid := by omega
          rw [Nat.mod_eq_sub_mod hside, Nat.mod_eq_of_lt h1]
        have hget : hs'[idx]? = hs[idx]? := by
          rw [hhs']
          by_cases hpar : hs.length % 2 = 1
          · rw [if_pos hpar, List.getElem?_append, if_pos (by omega)]
          · rw [if_neg hpar]
        have hgd : (hs'.drop mid).getD (idx - mid) [] = hs.getD idx [] := by
          have hidxeq : mid + (idx - mid) = idx := by omega
          rw [List.getD_eq_getElem?_getD, List.getElem?_drop, hidxeq, hget,
            List.getD_eq_getElem?_getD]
        rw [hmod, List.reverse_cons, branchFold_append]
        have hrec := ih f2 (hs'.drop mid) mid (idx - mid) r hr hdroplen (by omega) hf2
        rw [hgd] at hrec
        rw [hrec]
        simp [branchFold, MerkleNode.hash]
      · rw [if_neg hside]
        push_neg at hside
        have hget : hs'[idx]? = hs[idx]? := by
          rw [hhs']
          by_cases hpar : hs.length % 2 = 1
          · rw [if_pos hpar, List.getElem?_append, if_pos (by omega)]
          · rw [if_neg hpar]
        have hgd2 : (hs'.take mid).getD idx [] = hs.getD idx [] := by
          rw [List.getD_eq_getElem?_getD, List.getElem?_take, if_pos hside, hget,
            List.getD_eq_getElem?_getD]
        rw [List.reverse_cons, branchFold_append]
        have hrec := ih f2 (hs'.take mid) mid idx l hl htakelen hside hf2
        rw [hgd2] at hrec
        rw [hrec]
        simp [branchFold, MerkleNode.hash]


theorem merkleLeafHashes_length (txs : List Transaction) (e : Ent) :
    (merkleLeafHashes txs e).1.length = txs.length := by
  induction txs generalizing e with
  | nil => rfl
  | cons t rest ih => simp [merkleLeafHashes, ih]

theorem merkleLeafHashes_get (txs : List Transaction) (e : Ent) (i : Nat) (ti : Transaction)
    (hti : txs[i]? = some ti) :
    ∃ ei, (merkleLeafHashes txs e).1.getD i [] = txHash ti ei := by
  induction txs generalizing e i with
  | nil => simp at hti
  | cons t rest ih =>
    cases i with
    | zero =>
      refine ⟨e, ?_⟩
      simp at hti
      simp [merkleLeafHashes, hti]
    | succ n =>
      obtain ⟨ei, hei⟩ := ih (txHashEnt t e) n (by simpa using hti)
      exact ⟨ei, by simpa [merkleLeafHashes] using hei⟩

theorem positionB_mem (tx : Transaction) (txs : List Transaction) (hmem : tx ∈ txs) :
    ∃ i, positionB tx txs = some i ∧ i < txs.length ∧ txs[i]? = some tx := by
  induction txs with
  | nil => cases hmem
  | cons t rest ih =>
    by_cases h : t == tx
    · exact ⟨0, by simp [positionB, h], by simp, by simp [eq_of_beq h]⟩
    · have hmem' : tx ∈ rest := by
        rcases List.mem_cons.mp hmem with h' | h'
        · exact absurd (beq_iff_eq.mpr h'.symm) h
        · exact h'
      obtain ⟨i, h1, h2, h3⟩ := ih hmem'
      refine ⟨i + 1, ?_, by simpa using h2, by simpa using h3⟩
      simp [positionB, h, h1]

theorem parseHashes_some (fuel : Nat) : ∀ hs : List (List Nat), 1 ≤ hs.length →
    hs.length + 1 ≤ fuel → ∃ nd, parseHashes fuel hs = some nd := by
  induction fuel with
  | zero =>
    intro hs h1 h2
    omega
  | succ f ih =>
    intro hs h1 h2
    have hne : hs.isEmpty = false := by
      cases hs with
      | nil => simp at h1
      | cons a l => rfl
    by_cases hlen1 : hs.length = 1
    · refine ⟨.node (hs.headD []) none none, ?_⟩
      unfold parseHashes
      rw [hne]
      simp only [Bool.false_eq_true, if_false]
      rw [if_pos hlen1]
    · have hlen2 : 2 ≤ hs.length := by omega
      set hs' := if hs.length % 2 = 1 then hs ++ [hs.getLastD []] else hs with hhs'
      have hlen' : hs.length ≤ hs'.length ∧ hs'.length ≤ hs.length + 1 ∧ hs'.length % 2 = 0 := by
        rw [hhs']
        by_cases hpar : hs.length % 2 = 1
        · rw [if_pos hpar]
          simp
          omega
        · rw [if_neg hpar]
          omega
      set mid := hs'.length / 2 with hmid
      have hmid1 : 1 ≤ mid := by omega
      have hmidf : mid + 1 ≤ f := by omega
      have htakelen : (hs'.take mid).length = mid := by
        rw [List.length_take]
        omega
      have hdroplen : (hs'.drop mid).length = mid := by
        rw [List.length_drop]
        omega
      obtain ⟨l, hl⟩ := ih (hs'.take mid) (by omega) (by omega)
      obtain ⟨r, hr⟩ := ih (hs'.drop mid) (by omega) (by omega)
      refine ⟨.node (sha256 (l.hash ++ r.hash)) (some l) (some r), ?_⟩
      unfold parseHashes
      rw [hne]
      simp only [Bool.false_eq_true, if_false]
      rw [if_neg hlen1]
      simp only [← hhs', ← hmid]
      rw [hl]
      simp only [obind, Option.bind]
      rw [hr]

theorem merkle_branch_ok (txs : List Transaction) (tx : Transaction) (e e2 : Ent)
    (hmem : tx ∈ txs) (hnc : tx.inputs ≠ []) :
    ∃ br, getBranchHashes (merkleNew txs e).1 tx = some br ∧
      verifyTransactionBranch tx br (merkleNew txs e).1.rootHash e2 = true ∧
      (txs.length = 1 → br.length = 1) := by
  obtain ⟨i, hpos, hilt, hget⟩ := positionB_mem tx txs hmem
  have hlh := merkleLeafHashes_length txs e
  obtain ⟨ei, hleaf⟩ := merkleLeafHashes_get txs e i tx hget
  have hdet : txHash tx ei = txHash tx e2 := txHash_det tx hnc ei e2
  by_cases hone : txs.length = 1
  · -- single transaction: the hash list is duplicated
    have hi0 : i = 0 := by omega
    subst hi0
    obtain ⟨t, hts⟩ : ∃ t, txs = [t] := by
      cases txs with
      | nil => simp at hone
      | cons a l =>
        cases l with
        | nil => exact ⟨a, rfl⟩
        | cons b m => simp at hone
    have htx : t = tx := by
      rw [hts] at hget
      simpa using hget
    have hts2 : txs = [tx] := by rw [hts, htx]
    subst hts2
    set h := txHash tx e with hh
    have hlh1 : (merkleLeafHashes [tx] e).1 = [h] := by
      simp [merkleLeafHashes, ← hh]
    have hpf : parseHashes 3 [h, h] = some (.node (sha256 (h ++ h))
        (some (.node h none none)) (some (.node h none none))) := by
      simp [parseHashes, obind, MerkleNode.hash]
    have htree : (merkleNew [tx] e).1 =
        ⟨.node (sha256 (h ++ h)) (some (.node h none none)) (some (.node h none none)), [tx]⟩ := by
      unfold merkleNew
      simp only [hlh1]
      have hif : (if ([h] : List (List Nat)).length = 1 then [h] ++ [[h].headD []] else [h])
          = [h, h] := rfl
      rw [hif]
      have h3 : ([h, h] : List (List Nat)).length + 1 = 3 := rfl
      rw [h3, hpf]
      rfl
    refine ⟨[(h, 1)], ?_, ?_, ?_⟩
    · unfold getBranchHashes
      rw [htree]
      have hposx : positionB tx [tx] = some 0 := by simp [positionB]
      simp only [hposx, obind, Option.bind]
      have hrf : recursiveFind ([tx].length + 2) (MerkleNode.node (sha256 (h ++ h))
          (some (.node h none none)) (some (.node h none none))) [tx].length 0 = [(h, 1)] := by
        simp [recursiveFind, MerkleNode.hash]
      rw [hrf]
      rfl
    · unfold verifyTransactionBranch
      rw [htree]
      have hfold : branchFold (txHash tx e2) [(h, 1)] = sha256 (txHash tx e2 ++ h) := by
        simp [branchFold]
      rw [hfold]
      have hdet2 : txHash tx e2 = h := by
        rw [hh]
        exact txHash_det tx hnc e2 e
      rw [hdet2]
      simp [MerkleTree.rootHash, MerkleNode.hash]
    · intro hx
      rfl
  · -- at least two transactions: no duplication, apply the fold lemma
    have hlen2 : 2 ≤ txs.length := by
      have : 1 ≤ txs.length := List.length_pos.mpr (List.ne_nil_of_mem hmem)
      omega
    set lh := (merkleLeafHashes txs e).1 with hlhdef
    have hlhne1 : ¬ lh.length = 1 := by omega
    obtain ⟨nd, hnd⟩ := parseHashes_some (lh.length + 1) lh (by omega) (by omega)
    have htree : (merkleNew txs e).1 = ⟨nd, txs⟩ := by
      unfold merkleNew
      simp only [← hlhdef, if_neg hlhne1, hnd, Option.getD_some]
    refine ⟨(recursiveFind (txs.length + 2) nd txs.length i).reverse, ?_, ?_, ?_⟩
    · unfold getBranchHashes
      rw [htree, hpos]
      rfl
    · unfold verifyTransactionBranch
      rw [htree]
      have hfold := parse_find_fold (lh.length + 1) (txs.length + 2) lh txs.length i nd
        hnd (by omega) (by omega) (by omega)
      rw [hleaf, hdet] at hfold
      simp only [MerkleTree.rootHash]
      rw [hfold]
      simp
    · intro hx
      omega

/-- C4, counterexample to the claim as stated: for a tree over a single
coinbase transaction, `verify_transaction_branch` recomputes `tx.hash()`
with fresh salt, so the proof returned by `get_branch_hashes` fails to
verify whenever the two draws differ. -/
theorem merkle_coinbase_cex :
    verifyTransactionBranch (getCoinbase ⟨affineInfinity⟩ 50)
      ((getBranchHashes (merkleNew [getCoinbase ⟨affineInfinity⟩ 50] (fun _ => 0)).1
        (getCoinbase ⟨affineInfinity⟩ 50)).getD [])
      (merkleNew [getCoinbase ⟨affineInfinity⟩ 50] (fun _ => 0)).1.rootHash
      (fun _ => 1) = false := by decide

theorem merkle_branch_ok_witness :
    ∃ br, getBranchHashes
        (merkleNew [⟨[⟨List.replicate 32 0, 0, (affineInfinity, ⟨affineInfinity⟩)⟩], []⟩]
          (fun _ => 0)).1
        ⟨[⟨List.replicate 32 0, 0, (affineInfinity, ⟨affineInfinity⟩)⟩], []⟩ = some br ∧
      verifyTransactionBranch ⟨[⟨List.replicate 32 0, 0, (affineInfinity, ⟨affineInfinity⟩)⟩], []⟩
        br (merkleNew [⟨[⟨List.replicate 32 0, 0, (affineInfinity, ⟨affineInfinity⟩)⟩], []⟩]
          (fun _ => 0)).1.rootHash (fun _ => 1) = true ∧
      (([⟨[⟨List.replicate 32 0, 0, (affineInfinity, ⟨affineInfinity⟩)⟩], []⟩] :
        List Transaction).length = 1 → br.length = 1) :=
  merkle_branch_ok [⟨[⟨List.replicate 32 0, 0, (affineInfinity, ⟨affineInfinity⟩)⟩], []⟩]
    ⟨[⟨List.replicate 32 0, 0, (affineInfinity, ⟨affineInfinity⟩)⟩], []⟩
    (fun _ => 0) (fun _ => 1) (by decide) (by decide)

/-! ## Blocks and the chain (`src/blockchain/block.rs`, `src/blockchain/mod.rs`) -/

/-- `Block`. -/
structure Block where
  timestamp : Nat
  hash : List Nat
  previous_block_hash : List Nat
  nonce : Nat
  difficulty : Nat
  merkle_tree : MerkleTree

/-- `Block::hash()`: previous hash, Merkle root, and the three
big-endian `u64` fields. -/
def blockHash (b : Block) : List Nat :=
  sha256 (b.previous_block_hash ++ b.merkle_tree.rootHash ++ beBytes 8 b.timestamp
    ++ beBytes 8 b.nonce ++ beBytes 8 b.difficulty)

/-- `Blockchain`: the block list and the UTXO map. -/
structure Blockchain where
  blocks : List Block
  utxo : Utxo

/-- The per-transaction loop of `verify_new_block`: the coinbase count
and the accumulated transaction errors, in transaction order. -/
def vbtLoop (u : Utxo) : List Transaction → Option (Nat × List TransactionError)
  | [] => some (0, [])
  | tx :: rest =>
    obind (verifyNewTransaction u tx) fun r =>
    obind (vbtLoop u rest) fun acc =>
    some ((if tx.isCoinbase then 1 else 0) + acc.1,
      (match r with | .error err => [err] | .ok _ => []) ++ acc.2)

/-- `Blockchain::verify_new_block`: previous-hash check, hash check,
Merkle-root recomputation (which draws fresh coinbase salt from the
stream), then the transaction loop with the coinbase-count check first. -/
def verifyNewBlock (bc : Blockchain) (b : Block) (e : Ent) :
    Option (Except BlockError Unit × Ent) :=
  let prevOk := bc.blocks.isEmpty ||
    (match bc.blocks.getLast? with
     | some lb => b.previous_block_hash == lb.hash
     | none => false)
  if !prevOk then some (.error .InvalidPreviousBlockHash, e)
  else if blockHash b ≠ b.hash ∨ sha256IsValid b.hash b.difficulty = false then
    some (.error .InvalidHash, e)
  else
    let mt := merkleNew b.merkle_tree.transactions e
    if mt.1.rootHash ≠ b.merkle_tree.rootHash then some (.error .InvalidMerkleRoot, mt.2)
    else
      obind (vbtLoop bc.utxo b.merkle_tree.transactions) fun acc =>
      if acc.1 ≠ 1 then some (.error .InvalidCoinbase, mt.2)
      else if acc.2 ≠ [] then some (.error (.InvalidTransactions acc.2), mt.2)
      else some (.ok (), mt.2)

/-- The input loop of `add_block`'s commit: mark each consumed output
spent through `get_mut` (whose `unwrap` on a missing entry is the
source's panic, modelled `none`, as is an out-of-range `v[vout]`), and
remove the entry once all its outputs are spent. -/
def commitInputs (u : Utxo) : List TxInput → Option Utxo
  | [] => some u
  | inp :: rest =>
    match utxoGet u inp.txid with
    | none => none
    | some outs =>
      match outs[inp.vout]? with
      | none => none
      | some o =>
        let outs2 := outs.set inp.vout { o with spent := true }
        let u2 := utxoInsert u inp.txid outs2
        commitInputs (if outs2.all (fun x => x.spent) then utxoRemove u2 inp.txid else u2) rest

/-- The transaction loop of `add_block`'s commit: insert the outputs
under the (entropy-salted) transaction hash, then consume the inputs. -/
def commitTxs : Utxo → List Transaction → Ent → Option (Utxo × Ent)
  | u, [], e => some (u, e)
  | u, tx :: rest, e =>
    obind (commitInputs (utxoInsert u (txHash tx e) tx.outputs) tx.inputs) fun u2 =>
    commitTxs u2 rest (txHashEnt tx e)

/-- `Blockchain::add_block`: verify, then commit and append; an early
`Err` return leaves the chain untouched. -/
def addBlock (bc : Blockchain) (b : Block) (e : Ent) :
    Option (Except BlockError Unit × Blockchain × Ent) :=
  obind (verifyNewBlock bc b e) fun vr =>
  match vr.1 with
  | .error err => some (.error err, bc, vr.2)
  | .ok _ =>
    obind (commitTxs bc.utxo b.merkle_tree.transactions vr.2) fun p =>
    some (.ok (), ⟨bc.blocks ++ [b], p.1⟩, p.2)

/-! ### The spec's description of the commit (claim C2).  The following
definitions follow the claim's words — outputs inserted under the
transaction's hash, every consumed output marked spent, fully-spent
entries erased — with map/filter semantics on the UTXO association
list, to be compared with the translation of the source above. -/

/-- The `HashMap` invariant: pairwise distinct keys. -/
def utxoNodup (u : Utxo) : Prop := (u.map Prod.fst).Nodup

/-- Spec-worded: mark output `vout` of entry `k` spent. -/
def specMark (u : Utxo) (k : List Nat) (vout : Nat) : Utxo :=
  u.map fun p => if p.1 = k
    then (p.1, p.2.enum.map fun q => if q.1 = vout then { q.2 with spent := true } else q.2)
    else p

/-- Spec-worded: erase the entry of `k` when all its outputs are spent. -/
def specErase (u : Utxo) (k : List Nat) : Utxo :=
  u.filter fun p => !(p.1 == k && p.2.all fun o => o.spent)

/-- Spec-worded consumption of a transaction's inputs. -/
def specConsume (u : Utxo) : List TxInput → Option Utxo
  | [] => some u
  | inp :: rest =>
    match utxoGet u inp.txid with
    | none => none
    | some outs =>
      if inp.vout < outs.length then
        specConsume (specErase (specMark u inp.txid inp.vout) inp.txid) rest
      else none

/-- Spec-worded commit of a block's transactions. -/
def specCommit : Utxo → List Transaction → Ent → Option (Utxo × Ent)
  | u, [], e => some (u, e)
  | u, tx :: rest, e =>
    obind (specConsume (utxoInsert u (txHash tx e) tx.outputs) tx.inputs) fun u2 =>
    specCommit u2 rest (txHashEnt tx e)

/-! ### Equivalence of the source commit with the spec-worded commit,
under the `HashMap` key-uniqueness invariant. -/

/-- Indices of `enumFrom n` all lie at or above `n`, so a map branching
on a smaller index is the identity. -/
theorem enumFrom_map_fix {A : Type} (g : A -> A) (t : List A) (n i : Nat) (h : i < n) :
    (List.enumFrom n t).map (fun q => if q.1 = i then g q.2 else q.2) = t := by
  induction t generalizing n with
  | nil => rfl
  | cons a t ih =>
    simp only [List.enumFrom, List.map_cons]
    rw [if_neg (by omega), ih (n + 1) (by omega)]

theorem set_enumFrom (g : TxOutput -> TxOutput) (l : List TxOutput) (n i : Nat) (o : TxOutput)
    (h : l[i]? = some o) :
    l.set i (g o) = (List.enumFrom n l).map fun q => if q.1 = n + i then g q.2 else q.2 := by
  induction l generalizing i n with
  | nil => simp at h
  | cons a t ih =>
    cases i with
    | zero =>
      simp at h
      subst h
      simp only [List.set, List.enumFrom, List.map_cons, Nat.add_zero]
      rw [if_pos trivial, enumFrom_map_fix g t (n + 1) n (by omega)]
    | succ j =>
      simp at h
      simp only [List.set, List.enumFrom, List.map_cons]
      rw [if_neg (by omega)]
      have hx : n + 1 + j = n + (j + 1) := by omega
      rw [← hx, ← ih (n + 1) j h]

theorem set_eq_enumMap (g : TxOutput -> TxOutput) (l : List TxOutput) (i : Nat) (o : TxOutput)
    (h : l[i]? = some o) :
    l.set i (g o) = l.enum.map fun q => if q.1 = i then g q.2 else q.2 := by
  have hh := set_enumFrom g l 0 i o h
  simpa using hh

theorem find?_cons_pos {A : Type} (f : A -> Bool) (a : A) (l : List A) (h : f a = true) :
    List.find? f (a :: l) = some a := List.find?_cons_of_pos l h

theorem find?_cons_neg {A : Type} (f : A -> Bool) (a : A) (l : List A) (h : ¬f a = true) :
    List.find? f (a :: l) = List.find? f l := List.find?_cons_of_neg l (by simpa using h)

theorem utxoGet_cons (p : List Nat × List TxOutput) (u : Utxo) (k : List Nat) :
    utxoGet (p :: u) k = if p.1 == k then some p.2 else utxoGet u k := by
  by_cases hpk : p.1 == k
  · rw [if_pos hpk]
    unfold utxoGet
    rw [find?_cons_pos (fun p => p.1 == k) p u hpk]
    rfl
  · rw [if_neg hpk]
    unfold utxoGet
    rw [find?_cons_neg (fun p => p.1 == k) p u hpk]

theorem map_id_of_fixed {A : Type} (f : A -> A) (l : List A) (h : ∀ x ∈ l, f x = x) :
    l.map f = l := by
  induction l with
  | nil => rfl
  | cons a t ih =>
    rw [List.map_cons, h a (by simp), ih (fun x hx => h x (by simp [hx]))]

theorem nodup_cons_no_key (p : List Nat × List TxOutput) (u : Utxo)
    (hnd : utxoNodup (p :: u)) : ∀ q ∈ u, ¬(q.1 = p.1) := by
  intro q hq hqk
  unfold utxoNodup at hnd
  rw [List.map_cons, List.nodup_cons] at hnd
  exact hnd.1 (hqk ▸ List.mem_map_of_mem Prod.fst hq)

theorem nodup_tail (p : List Nat × List TxOutput) (u : Utxo)
    (hnd : utxoNodup (p :: u)) : utxoNodup u := by
  unfold utxoNodup at hnd ⊢
  rw [List.map_cons, List.nodup_cons] at hnd
  exact hnd.2

theorem utxoGet_insert_map (u : Utxo) (k : List Nat) (v : List TxOutput)
    (h : (List.find? (fun p => p.1 == k) u).isSome) :
    utxoGet (u.map fun p => if p.1 == k then (k, v) else p) k = some v := by
  induction u with
  | nil => simp at h
  | cons p u ih =>
    by_cases hpk : p.1 == k
    · rw [List.map_cons, if_pos hpk]
      unfold utxoGet
      rw [find?_cons_pos (fun p => p.1 == k) (k, v) _ (by simp)]
      rfl
    · rw [List.map_cons, if_neg hpk]
      rw [utxoGet_cons, if_neg hpk]
      apply ih
      rw [find?_cons_neg (fun p => p.1 == k) p u hpk] at h
      exact h

theorem utxoGet_insert_self (u : Utxo) (k : List Nat) (v : List TxOutput)
    (h : (List.find? (fun p => p.1 == k) u).isSome) :
    utxoGet (utxoInsert u k v) k = some v := by
  unfold utxoInsert
  rw [if_pos h]
  exact utxoGet_insert_map u k v h

theorem insert_nodup (u : Utxo) (k : List Nat) (v : List TxOutput)
    (hnd : utxoNodup u) : utxoNodup (utxoInsert u k v) := by
  unfold utxoInsert
  by_cases h : (List.find? (fun p => p.1 == k) u).isSome
  · rw [if_pos h]
    unfold utxoNodup
    rw [List.map_map]
    have hfst : ((fun p => Prod.fst p) ∘ fun p : List Nat × List TxOutput =>
        if p.1 == k then (k, v) else p) = Prod.fst := by
      funext p
      by_cases hpk : p.1 == k
      · simp only [Function.comp, if_pos hpk]
        exact (eq_of_beq hpk).symm
      · simp only [Function.comp, if_neg hpk]
    rw [hfst]
    exact hnd
  · rw [if_neg h]
    unfold utxoNodup
    rw [List.map_append]
    apply List.Nodup.append hnd (by simp)
    intro a ha hb
    have ha2 : a = k := by simpa using hb
    obtain ⟨b, hb2⟩ : ∃ x, (a, x) ∈ u := by simpa using ha
    have hn : List.find? (fun p => p.1 == k) u = none :=
      Option.not_isSome_iff_eq_none.mp h
    rw [List.find?_eq_none] at hn
    exact hn (a, b) hb2 (by simp [ha2])

theorem specMark_map_fst (u : Utxo) (k : List Nat) (vout : Nat) :
    (specMark u k vout).map Prod.fst = u.map Prod.fst := by
  unfold specMark
  rw [List.map_map]
  apply List.map_congr_left
  intro p _
  by_cases hp : p.1 = k
  · simp [hp]
  · simp [hp]

theorem specMark_nodup (u : Utxo) (k : List Nat) (vout : Nat)
    (hnd : utxoNodup u) : utxoNodup (specMark u k vout) := by
  unfold utxoNodup
  rw [specMark_map_fst]
  exact hnd

theorem specErase_nodup (u : Utxo) (k : List Nat)
    (hnd : utxoNodup u) : utxoNodup (specErase u k) := by
  unfold utxoNodup specErase
  exact List.Nodup.sublist (List.Sublist.map Prod.fst (List.filter_sublist u)) hnd

theorem insert_set_eq_specMark (u : Utxo) (k : List Nat) (vout : Nat)
    (outs : List TxOutput) (o : TxOutput)
    (hnd : utxoNodup u) (hget : utxoGet u k = some outs) (ho : outs[vout]? = some o) :
    utxoInsert u k (outs.set vout { o with spent := true }) = specMark u k vout := by
  induction u with
  | nil => simp [utxoGet] at hget
  | cons p u ih =>
    by_cases hpk : p.1 == k
    · have hpk2 : p.1 = k := eq_of_beq hpk
      rw [utxoGet_cons, if_pos hpk] at hget
      have houts : p.2 = outs := by injection hget
      unfold utxoInsert
      rw [if_pos (by rw [find?_cons_pos (fun p => p.1 == k) p u hpk]; rfl)]
      unfold specMark
      rw [List.map_cons, List.map_cons, if_pos hpk, if_pos hpk2]
      have hfix1 : List.map (fun q : List Nat × List TxOutput =>
          if q.1 == k then (k, outs.set vout { o with spent := true }) else q) u = u := by
        apply map_id_of_fixed
        intro q hq
        rw [if_neg (by simpa [hpk2] using (beq_iff_eq.not.mpr (nodup_cons_no_key p u hnd q hq)))]
      have hfix2 : List.map (fun q : List Nat × List TxOutput =>
          if q.1 = k then (q.1, q.2.enum.map fun r => if r.1 = vout
            then { r.2 with spent := true } else r.2) else q) u = u := by
        apply map_id_of_fixed
        intro q hq
        rw [if_neg (hpk2 ▸ nodup_cons_no_key p u hnd q hq)]
      rw [hfix1, hfix2]
      rw [← houts] at ho ⊢
      rw [set_eq_enumMap (fun x => { x with spent := true }) p.2 vout o ho, hpk2]
    · rw [utxoGet_cons, if_neg hpk] at hget
      have hsome : (List.find? (fun q => q.1 == k) u).isSome := by
        unfold utxoGet at hget
        cases hf : List.find? (fun q => q.1 == k) u with
        | none => rw [hf] at hget; simp at hget
        | some q => simp
      unfold utxoInsert
      rw [if_pos (by rw [find?_cons_neg (fun q => q.1 == k) p u hpk]; exact hsome)]
      unfold specMark
      rw [List.map_cons, List.map_cons, if_neg hpk,
        if_neg (fun hc => hpk (beq_iff_eq.mpr hc))]
      have ihh := ih (nodup_tail p u hnd) hget
      unfold utxoInsert at ihh
      rw [if_pos hsome] at ihh
      unfold specMark at ihh
      rw [ihh]

theorem filter_cons_pos {A : Type} (f : A -> Bool) (a : A) (l : List A) (h : f a = true) :
    List.filter f (a :: l) = a :: List.filter f l := List.filter_cons_of_pos h

theorem filter_cons_neg {A : Type} (f : A -> Bool) (a : A) (l : List A) (h : ¬f a = true) :
    List.filter f (a :: l) = List.filter f l := List.filter_cons_of_neg (by simpa using h)

theorem remove_no_key_id (u : Utxo) (k : List Nat)
    (h : ∀ q ∈ u, ¬(q.1 = k)) : utxoRemove u k = u := by
  unfold utxoRemove
  rw [List.filter_eq_self]
  intro q hq
  simp [h q hq]

theorem specErase_no_key_id (u : Utxo) (k : List Nat)
    (h : ∀ q ∈ u, ¬(q.1 = k)) : specErase u k = u := by
  unfold specErase
  rw [List.filter_eq_self]
  intro q hq
  simp [h q hq]

theorem erase_eq_specErase (u : Utxo) (k : List Nat) (outs2 : List TxOutput)
    (hnd : utxoNodup u) (hget : utxoGet u k = some outs2) :
    (if outs2.all (fun x => x.spent) then utxoRemove u k else u) = specErase u k := by
  induction u with
  | nil => simp [utxoGet] at hget
  | cons p u ih =>
    by_cases hpk : p.1 == k
    · have hpk2 : p.1 = k := eq_of_beq hpk
      rw [utxoGet_cons, if_pos hpk] at hget
      have houts : p.2 = outs2 := by injection hget
      have hnok : ∀ q ∈ u, ¬(q.1 = k) := fun q hq => hpk2 ▸ nodup_cons_no_key p u hnd q hq
      have h1 := remove_no_key_id u k hnok
      have h2 := specErase_no_key_id u k hnok
      unfold utxoRemove at h1
      unfold specErase at h2
      by_cases hall : outs2.all (fun x => x.spent)
      · rw [if_pos hall]
        unfold utxoRemove specErase
        rw [filter_cons_neg (fun q : List Nat × List TxOutput => !(q.1 == k)) p u
            (by simp [hpk]),
          filter_cons_neg (fun q : List Nat × List TxOutput =>
            !(q.1 == k && q.2.all fun o => o.spent)) p u
            (by simp [hpk, houts, hall])]
        rw [h1, h2]
      · rw [if_neg hall]
        have hb : outs2.all (fun x => x.spent) = false := eq_false_of_ne_true hall
        unfold specErase
        rw [filter_cons_pos (fun q : List Nat × List TxOutput =>
            !(q.1 == k && q.2.all fun o => o.spent)) p u
            (by simp [hpk, houts, hb])]
        rw [h2]
    · rw [utxoGet_cons, if_neg hpk] at hget
      have ihh := ih (nodup_tail p u hnd) hget
      have hkeep : (!(p.1 == k && p.2.all fun o => o.spent)) = true := by simp [hpk]
      by_cases hall : outs2.all (fun x => x.spent)
      · rw [if_pos hall]
        rw [if_pos hall] at ihh
        unfold utxoRemove specErase
        rw [filter_cons_pos (fun q : List Nat × List TxOutput => !(q.1 == k)) p u
            (by simp [hpk]),
          filter_cons_pos (fun q : List Nat × List TxOutput =>
            !(q.1 == k && q.2.all fun o => o.spent)) p u hkeep]
        unfold utxoRemove specErase at ihh
        rw [ihh]
      · rw [if_neg hall]
        rw [if_neg hall] at ihh
        unfold specErase
        rw [filter_cons_pos (fun q : List Nat × List TxOutput =>
            !(q.1 == k && q.2.all fun o => o.spent)) p u hkeep]
        unfold specErase at ihh
        rw [← ihh]

theorem utxoGet_isSome_find (u : Utxo) (k : List Nat) (outs : List TxOutput)
    (hget : utxoGet u k = some outs) :
    (List.find? (fun p => p.1 == k) u).isSome := by
  unfold utxoGet at hget
  cases hf : List.find? (fun p => p.1 == k) u with
  | none => rw [hf] at hget; simp at hget
  | some q => simp

theorem commitInputs_eq_spec (inps : List TxInput) (u : Utxo) (hnd : utxoNodup u) :
    commitInputs u inps = specConsume u inps := by
  induction inps generalizing u with
  | nil => rfl
  | cons inp rest ih =>
    unfold commitInputs specConsume
    cases hget : utxoGet u inp.txid with
    | none => rfl
    | some outs =>
      dsimp only
      cases ho : outs[inp.vout]? with
      | none =>
        dsimp only
        rw [if_neg]
        intro hlt
        rw [List.getElem?_eq_none_iff] at ho
        omega
      | some o =>
        dsimp only
        have hlt : inp.vout < outs.length := by
          by_contra hc
          rw [List.getElem?_eq_none_iff.mpr (by omega)] at ho
          exact Option.noConfusion ho
        rw [if_pos hlt]
        have hmark := insert_set_eq_specMark u inp.txid inp.vout outs o hnd hget ho
        have hsome := utxoGet_isSome_find u inp.txid outs hget
        have hget2 : utxoGet (specMark u inp.txid inp.vout) inp.txid =
            some (outs.set inp.vout { o with spent := true }) := by
          rw [← hmark]
          exact utxoGet_insert_self u inp.txid _ hsome
        have hnd2 : utxoNodup (specMark u inp.txid inp.vout) :=
          specMark_nodup u inp.txid inp.vout hnd
        have herase := erase_eq_specErase (specMark u inp.txid inp.vout) inp.txid
          (outs.set inp.vout { o with spent := true }) hnd2 hget2
        rw [hmark, herase]
        exact ih _ (specErase_nodup _ inp.txid hnd2)

theorem specConsume_nodup (inps : List TxInput) (u u2 : Utxo) (hnd : utxoNodup u)
    (h : specConsume u inps = some u2) : utxoNodup u2 := by
  induction inps generalizing u with
  | nil =>
    unfold specConsume at h
    injection h with h2
    rw [← h2]
    exact hnd
  | cons inp rest ih =>
    unfold specConsume at h
    cases hget : utxoGet u inp.txid with
    | none => rw [hget] at h; exact Option.noConfusion h
    | some outs =>
      rw [hget] at h
      dsimp only at h
      by_cases hlt : inp.vout < outs.length
      · rw [if_pos hlt] at h
        exact ih _ (specErase_nodup _ inp.txid (specMark_nodup u inp.txid inp.vout hnd)) h
      · rw [if_neg hlt] at h
        exact Option.noConfusion h

theorem commitTxs_eq_spec (txs : List Transaction) (u : Utxo) (e : Ent) (hnd : utxoNodup u) :
    commitTxs u txs e = specCommit u txs e := by
  induction txs generalizing u e with
  | nil => rfl
  | cons tx rest ih =>
    unfold commitTxs specCommit
    have hnd2 : utxoNodup (utxoInsert u (txHash tx e) tx.outputs) :=
      insert_nodup u (txHash tx e) tx.outputs hnd
    rw [commitInputs_eq_spec tx.inputs _ hnd2]
    unfold obind
    cases hc : specConsume (utxoInsert u (txHash tx e) tx.outputs) tx.inputs with
    | none => rfl
    | some u2 =>
      exact ih u2 (txHashEnt tx e) (specConsume_nodup tx.inputs _ u2 hnd2 hc)


/-- C2.  `add_block` is transactional: on a `BlockError` the returned
chain is exactly the one passed in (block list and UTXO map untouched,
verification being pure by construction), and on `Ok` the block is
appended and the new UTXO map is exactly the spec-worded commit of every
transaction (outputs inserted under the transaction hash, consumed
outputs marked spent, fully-spent entries erased), starting from the
entropy stream verification left behind. -/
theorem add_block_transactional (bc : Blockchain) (b : Block) (e : Ent)
    (hnd : utxoNodup bc.utxo) (r : Except BlockError Unit) (bc2 : Blockchain) (e2 : Ent)
    (h : addBlock bc b e = some (r, bc2, e2)) :
    ((∃ err, r = Except.error err) → bc2 = bc) ∧
    (r = Except.ok () → bc2.blocks = bc.blocks ++ [b] ∧
      ∃ e1, verifyNewBlock bc b e = some (Except.ok (), e1) ∧
        specCommit bc.utxo b.merkle_tree.transactions e1 = some (bc2.utxo, e2)) := by
  unfold addBlock obind at h
  cases hv : verifyNewBlock bc b e with
  | none => rw [hv] at h; exact Option.noConfusion h
  | some vr =>
    rw [hv] at h
    rw [Option.some_bind] at h
    cases hv1 : vr.1 with
    | error err =>
      rw [hv1] at h
      dsimp only at h
      injection h with h2
      have hr : Except.error err = r := congrArg Prod.fst h2
      have hbc : bc = bc2 := congrArg (fun q => q.2.1) h2
      constructor
      · intro _
        exact hbc.symm
      · intro hok
        exact Except.noConfusion (hr.trans hok)
    | ok u =>
      rw [hv1] at h
      dsimp only at h
      cases hc : commitTxs bc.utxo b.merkle_tree.transactions vr.2 with
      | none => rw [hc] at h; exact Option.noConfusion h
      | some p =>
        rw [hc] at h
        rw [Option.some_bind] at h
        injection h with h2
        have hr : Except.ok () = r := congrArg Prod.fst h2
        have hbc : (⟨bc.blocks ++ [b], p.1⟩ : Blockchain) = bc2 :=
          congrArg (fun q => q.2.1) h2
        have he : p.2 = e2 := congrArg (fun q => q.2.2) h2
        constructor
        · intro hex
          obtain ⟨err, herr⟩ := hex
          exact Except.noConfusion (hr.trans herr)
        · intro _
          refine ⟨by rw [← hbc], vr.2, ?_, ?_⟩
          · cases u
            rw [← hv1]
          · rw [← commitTxs_eq_spec b.merkle_tree.transactions bc.utxo vr.2 hnd, hc,
              ← hbc, ← he]

/-- A concrete genesis block: a single 50-value coinbase, difficulty 0,
hash field set to the block's own recomputed hash. -/
def genesisTx : Transaction := getCoinbase ⟨affineInfinity⟩ 50

def genesisTree : MerkleTree := (merkleNew [genesisTx] (fun _ => 0)).1

def genesisBlock : Block :=
  ⟨0, blockHash ⟨0, [], [], 0, 0, genesisTree⟩, [], 0, 0, genesisTree⟩

def genesisChain : Blockchain :=
  ⟨[genesisBlock], utxoInsert [] (txHash genesisTx (fun _ => 0)) genesisTx.outputs⟩

theorem add_block_transactional_witness :
    utxoNodup (⟨[], []⟩ : Blockchain).utxo ∧
    addBlock ⟨[], []⟩ genesisBlock (fun _ => 0) =
      some (Except.ok (), genesisChain, (fun _ => 0 : Ent)) ∧
    (((∃ err, (Except.ok () : Except BlockError Unit) = Except.error err) →
        genesisChain = ⟨[], []⟩) ∧
      ((Except.ok () : Except BlockError Unit) = Except.ok () →
        genesisChain.blocks = (⟨[], []⟩ : Blockchain).blocks ++ [genesisBlock] ∧
        ∃ e1, verifyNewBlock ⟨[], []⟩ genesisBlock (fun _ => 0) = some (Except.ok (), e1) ∧
          specCommit (⟨[], []⟩ : Blockchain).utxo genesisBlock.merkle_tree.transactions e1 =
            some (genesisChain.utxo, (fun _ => 0 : Ent)))) :=
  ⟨by simp [utxoNodup], by rfl,
    add_block_transactional ⟨[], []⟩ genesisBlock (fun _ => 0) (by simp [utxoNodup])
      (Except.ok ()) genesisChain (fun _ => 0) (by rfl)⟩
